import Mathlib

/-!
# Zedstore TID-tree and attribute-tree: a shallow embedding

This file embeds the core algorithms of `zedstore_tidpage.c` and
`zedstore_attpage.c` (the TID tree of the zedstore columnar storage engine)
as executable Lean definitions, and proves the specification claims about
them.

Modelling conventions:
* TIDs (the source's 48-bit `zstid`) and undo pointers are plain `Nat`; the
  sentinel constants are taken from the spec (the header defining them is not
  among the sources).
* A B-tree is modelled by its leaf level: the list of leaves in right-link
  order.  `zsbt_descend` is modelled as locating the (unique, for well-formed
  trees) leaf whose `[lokey, hikey)` range covers the key; the internal pages
  and the buffer manager are external to the claims treated here.
* Undo pointers are `Nat` (`0` = `InvalidUndoPtr`); the undo log is a list of
  records, and `zsundo_insert` appends and returns `length + 1` as the
  pointer, so that every real pointer is distinct and nonzero.
* External MVCC calls (`zs_SatisfiesVisibility`, `zs_SatisfiesUpdate`) are
  oracle parameters: a visibility predicate on undo pointers, and the result
  record of the single `SatisfiesUpdate` call an operation makes.
* Fallible code (`elog(ERROR)` paths) is modelled with `Option`/`Except`:
  `none`/`.error` is a fatal error.  `elog(WARNING)` paths return normally.
-/

namespace ZedStore

/-- `InvalidZSTid`: zero is the reserved invalid TID. -/
def InvalidZSTid : Nat := 0

/-- Modelled from the spec: `MaxPlusOneZSTid` is the sentinel upper bound of
the 48-bit TID space, `2 ^ 48` (its defining header is not among the
sources). -/
def MaxPlusOneZSTid : Nat := 281474976710656

/-- Largest valid TID. -/
def MaxZSTid : Nat := MaxPlusOneZSTid - 1

/-- Smallest valid TID. -/
def MinZSTid : Nat := 1

/-- `InvalidUndoPtr`. -/
def InvalidUndoPtr : Nat := 0

/-- `FrozenTransactionId` (PostgreSQL constant 2): inserts by a frozen xid
emit no undo record. -/
def FrozenTransactionId : Nat := 2

/-- Flag bit 0 of a TID array item: the run is dead (vacuum-reclaimable). -/
def ZSBT_TID_DEAD : Nat := 1

/-- `ZSTidArrayItem`: a dense run of TIDs `[t_tid, t_tid + t_nelements)`, all
sharing one undo pointer and flags. -/
structure ZSTidArrayItem where
  t_tid : Nat
  t_nelements : Nat
  t_undo_ptr : Nat
  t_flags : Nat
  deriving Repr, DecidableEq, Inhabited

/-- `zsbt_tid_item_lasttid`: the last TID covered by an item. -/
def zsbt_tid_item_lasttid (item : ZSTidArrayItem) : Nat :=
  item.t_tid + item.t_nelements - 1

/-- Does the item's `DEAD` flag bit test nonzero (`item->t_flags & ZSBT_TID_DEAD`)? -/
def ZSTidArrayItem.isDead (item : ZSTidArrayItem) : Bool :=
  (item.t_flags &&& ZSBT_TID_DEAD) != 0

/-- Does the run `[t_tid, t_tid + t_nelements)` cover `tid`?  This is the test
`item->t_tid <= tid && item->t_tid + item->t_nelements > tid` used by
`zsbt_tid_fetch` and `zsbt_tid_replace_item`. -/
def ZSTidArrayItem.coversb (item : ZSTidArrayItem) (tid : Nat) : Bool :=
  item.t_tid ≤ tid && tid < item.t_tid + item.t_nelements

/-- A TID-tree leaf page: its key range `[lokey, hikey)` from the page opaque,
and its item array.  The right-link is implicit in the list order of the tree. -/
structure TidLeaf where
  lokey : Nat
  hikey : Nat
  items : List ZSTidArrayItem
  deriving Repr, DecidableEq, Inhabited

/-- Well-formedness of one leaf's item array: every run is nonempty and lies
inside `[lokey, hikey)`, and runs are ordered and non-overlapping. -/
abbrev itemsWF (lokey hikey : Nat) (items : List ZSTidArrayItem) : Prop :=
  (∀ it ∈ items, 1 ≤ it.t_nelements ∧ lokey ≤ it.t_tid ∧
      it.t_tid + it.t_nelements ≤ hikey) ∧
  items.Pairwise (fun a b => a.t_tid + a.t_nelements ≤ b.t_tid)

/-- Well-formed leaf: nonempty key range and well-formed item array. -/
abbrev TidLeaf.wf (l : TidLeaf) : Prop :=
  l.lokey < l.hikey ∧ itemsWF l.lokey l.hikey l.items

/-- Well-formed leaf level: every leaf is well-formed and consecutive leaves
share their boundary key (right sibling's `lokey` = left sibling's `hikey`). -/
abbrev treeWF (tree : List TidLeaf) : Prop :=
  (∀ l ∈ tree, l.wf) ∧
  ∀ k < tree.length - 1,
    (tree.getD k default).hikey = (tree.getD (k + 1) default).lokey

/-- The tree covers the whole TID space up to the sentinel: the last leaf's
high key is `MaxPlusOneZSTid` (rightmost leaf property). -/
abbrev treeClosed (tree : List TidLeaf) : Prop :=
  (tree.getLast?.map TidLeaf.hikey) = some MaxPlusOneZSTid

/-- `zsbt_descend` to leaf level, modelled as locating the first leaf whose
`[lokey, hikey)` range covers the key; returns its index in the leaf chain
(`none` = completely empty tree). -/
def zsbt_descend_leaf : List TidLeaf → Nat → Option Nat
  | [], _ => none
  | leaf :: rest, tid =>
    if leaf.lokey ≤ tid ∧ tid < leaf.hikey then some 0
    else (zsbt_descend_leaf rest tid).map (· + 1)

/-- `zsbt_tid_fetch`: descend to the leaf containing `tid` and scan its item
array for the run covering `tid`.  Returns the leaf index (standing for the
locked buffer) and the covering item's undo pointer and DEAD flag. -/
def zsbt_tid_fetch (tree : List TidLeaf) (tid : Nat) :
    Option (Nat × Nat × Bool) :=
  match zsbt_descend_leaf tree tid with
  | none => none
  | some i =>
    match tree[i]? with
    | none => none
    | some leaf =>
      match leaf.items.find? (fun it => it.coversb tid) with
      | none => none
      | some item => some (i, item.t_undo_ptr, item.isDead)

/-- `zsbt_tid_create_item`: a fresh run item with zero flags. -/
def zsbt_tid_create_item (tid : Nat) (undo_ptr : Nat) (nelements : Nat) :
    ZSTidArrayItem :=
  { t_tid := tid, t_flags := 0, t_nelements := nelements, t_undo_ptr := undo_ptr }

/-- The loop of `zsbt_binsrch_tidpage`: binary search maintaining
`low`/`high`, moving `low` past entries with `t_tid ≤ key`. -/
def zsbt_binsrch_loop (key : Nat) (arr : List ZSTidArrayItem)
    (low high : Nat) : Nat :=
  if _h : low < high then
    if key ≥ ((arr.getD (low + (high - low) / 2) default).t_tid) then
      zsbt_binsrch_loop key arr (low + (high - low) / 2 + 1) high
    else
      zsbt_binsrch_loop key arr low (low + (high - low) / 2)
  else
    low
  termination_by high - low
  decreasing_by
  · omega
  · omega

/-- `zsbt_binsrch_tidpage`: index of the last item with `t_tid ≤ key`, or
`-1` if there is none. -/
def zsbt_binsrch_tidpage (key : Nat) (arr : List ZSTidArrayItem) : Int :=
  (zsbt_binsrch_loop key arr 0 arr.length : Int) - 1

/-- The array slice before the target TID (`cutoff = oldtid - t_tid`
elements, carrying the old item's undo pointer); empty when the target is the
run's first TID. -/
def sliceBefore (olditem : ZSTidArrayItem) (oldtid : Nat) : List ZSTidArrayItem :=
  if 0 < oldtid - olditem.t_tid then
    [zsbt_tid_create_item olditem.t_tid olditem.t_undo_ptr (oldtid - olditem.t_tid)]
  else []

/-- The array slice after the target TID (covering
`[oldtid + 1, t_tid + t_nelements)`, carrying the old item's undo pointer);
empty when the target is the run's last TID. -/
def sliceAfter (olditem : ZSTidArrayItem) (oldtid : Nat) : List ZSTidArrayItem :=
  if (oldtid - olditem.t_tid) + 1 < olditem.t_nelements then
    [zsbt_tid_create_item (oldtid + 1) olditem.t_undo_ptr
      (olditem.t_nelements - ((oldtid - olditem.t_tid) + 1))]
  else []

/-- `zsbt_tid_replace_item` on one leaf's item array: find the run covering
`oldtid` by binary search, slice it into the pieces before and after `oldtid`
(both inheriting the old undo pointer), and substitute
`before? ++ replacement? ++ after?` for it.  The source writes the result
either in place or through the recompressor; both produce this item sequence.
`none` models the `elog(ERROR, "could not find item to replace ...")` paths. -/
def zsbt_tid_replace_item (items : List ZSTidArrayItem) (oldtid : Nat)
    (replacementitem : Option ZSTidArrayItem) : Option (List ZSTidArrayItem) :=
  let idx := zsbt_binsrch_tidpage oldtid items
  if idx < 0 then
    none
  else
    let itemno := idx.toNat
    let olditem := items.getD itemno default
    if oldtid < olditem.t_tid ∨ olditem.t_tid + olditem.t_nelements ≤ oldtid then
      none
    else
      some (items.take itemno ++ sliceBefore olditem oldtid ++
            replacementitem.toList ++ sliceAfter olditem oldtid ++
            items.drop (itemno + 1))

/-! ## Undo log and MVCC oracle -/

/-- Undo records emitted by the TID-tree operations (`ZSUndoRec_*`).  Each
record's `prev` field chains to the tuple's previous undo record. -/
inductive UndoRec where
  | insertRec (xid cid : Nat) (tid : Nat) (speculative_token : Nat)
      (prev : Nat) (endtid : Nat)
  | deleteRec (xid cid : Nat) (tid : Nat) (prev : Nat) (changedPart : Bool)
  | updateRec (xid cid : Nat) (tid : Nat) (prev : Nat) (newtid : Nat)
      (key_update : Bool)
  | tupleLockRec (xid cid : Nat) (tid : Nat) (prev : Nat) (lockmode : Nat)
  deriving Repr, DecidableEq

/-- `zsundo_insert`: append a record to the undo log; the returned pointer is
the new length, so pointers are distinct and never `InvalidUndoPtr`. -/
def zsundo_insert (undo : List UndoRec) (rec : UndoRec) : List UndoRec × Nat :=
  (undo ++ [rec], undo.length + 1)

/-- `TM_Result` of the table-AM interface. -/
inductive TM_Result where
  | Ok
  | Invisible
  | SelfModified
  | Updated
  | Deleted
  | BeingModified
  | WouldBlock
  deriving Repr, DecidableEq

/-- Outcome of one external `zs_SatisfiesUpdate` call: the `TM_Result`, the
`keep_old_undo_ptr` advice, and the follow-up TID it reports. -/
structure SatisfiesUpdateResult where
  result : TM_Result
  keep_old_undo_ptr : Bool
  next_tid : Nat
  deriving Repr, DecidableEq

/-! ## TID-tree mutation operations -/

/-- Outcome of `zsbt_tid_multi_insert`: the TIDs handed back to the caller,
the new leaf level, and the new undo log. -/
structure MultiInsertOutcome where
  tids : List Nat
  tree : List TidLeaf
  undo : List UndoRec
  deriving Repr, DecidableEq

/-- `zsbt_tid_multi_insert` (no pre-chosen TID): descend to the rightmost
leaf (key `MaxZSTid`), allocate `tid` = the end of the leaf's last item (the
leaf's `lokey` when it is empty), emit one `INSERT` undo record covering
`[tid, tid + nitems)` unless the xid is frozen, build a single run item for
the whole range, and add it at the end of the leaf (`zsbt_tid_add_items`
appends to the item array; when the page overflows, the recompressor rewrites
the same item sequence onto a chain of pages, see `zsbt_tid_recompress_picksplit`).
`none` models descending into a nonexistent tree. -/
def zsbt_tid_multi_insert (tree : List TidLeaf) (undo : List UndoRec)
    (nitems : Nat) (xid cid : Nat) (speculative_token : Nat)
    (prevundoptr : Nat) : Option MultiInsertOutcome :=
  match zsbt_descend_leaf tree MaxZSTid with
  | none => none
  | some i =>
    match tree[i]? with
    | none => none
    | some leaf =>
      let endtid : Nat :=
        match leaf.items.getLast? with
        | some lastitem => lastitem.t_tid + lastitem.t_nelements
        | none => leaf.lokey
      let tid := endtid
      let (undo', undorecptr) :=
        if xid ≠ FrozenTransactionId then
          zsundo_insert undo
            (UndoRec.insertRec xid cid tid speculative_token prevundoptr
              (tid + nitems - 1))
        else
          (undo, InvalidUndoPtr)
      let newitem := zsbt_tid_create_item tid undorecptr nitems
      some { tids := (List.range nitems).map (fun k => tid + k),
             tree := tree.set i { leaf with items := leaf.items ++ [newitem] },
             undo := undo' }

/-- Outcome of `zsbt_tid_delete` / `zsbt_tid_lock`: the returned `TM_Result`
plus the resulting leaf level and undo log. -/
structure MutationOutcome where
  result : TM_Result
  tree : List TidLeaf
  undo : List UndoRec
  deriving Repr, DecidableEq

/-- `zsbt_tid_delete`: fetch the covering item (fatal if absent or DEAD);
with a snapshot, consult `SatisfiesUpdate` and return its verdict unchanged
when it is not `Ok`; otherwise emit a `DELETE` undo record (chaining to the
old pointer iff `keep_old_undo_ptr`) and replace the single-TID slice with
`{tid, 1, new_undoptr, 0}`.  The crosscheck-snapshot branch of the source
assigns `TM_Updated` to its local `result` but then falls through, and the
function unconditionally returns `TM_Ok` after replacing the item, so the
crosscheck verdict does not affect the outcome modelled here. -/
def zsbt_tid_delete (tree : List TidLeaf) (undo : List UndoRec) (tid : Nat)
    (xid cid : Nat) (hasSnapshot : Bool) (satUpd : SatisfiesUpdateResult)
    (changingPart : Bool) : Option MutationOutcome :=
  match zsbt_tid_fetch tree tid with
  | none => none
  | some (i, item_undoptr, item_isdead) =>
    if item_isdead then
      none
    else if hasSnapshot && decide (satUpd.result ≠ TM_Result.Ok) then
      some { result := satUpd.result, tree := tree, undo := undo }
    else
      let keep_old_undo_ptr := if hasSnapshot then satUpd.keep_old_undo_ptr else true
      let prev := if keep_old_undo_ptr then item_undoptr else InvalidUndoPtr
      let (undo', undorecptr) :=
        zsundo_insert undo (UndoRec.deleteRec xid cid tid prev changingPart)
      let deleteditem := zsbt_tid_create_item tid undorecptr 1
      match tree[i]? with
      | none => none
      | some leaf =>
        match zsbt_tid_replace_item leaf.items tid (some deleteditem) with
        | none => none
        | some items' =>
          some { result := TM_Result.Ok,
                 tree := tree.set i { leaf with items := items' },
                 undo := undo' }

/-- `zsbt_tid_lock`: same shape as delete, but the undo record is
`TUPLE_LOCK` with the caller's lock mode, and the replacement item keeps the
TID with the new undo pointer.  `SatisfiesUpdate` is consulted
unconditionally. -/
def zsbt_tid_lock (tree : List TidLeaf) (undo : List UndoRec) (tid : Nat)
    (xid cid : Nat) (mode : Nat) (satUpd : SatisfiesUpdateResult) :
    Option MutationOutcome :=
  match zsbt_tid_fetch tree tid with
  | none => none
  | some (i, item_undoptr, item_isdead) =>
    if item_isdead then
      none
    else if satUpd.result ≠ TM_Result.Ok then
      some { result := satUpd.result, tree := tree, undo := undo }
    else
      let prev := if satUpd.keep_old_undo_ptr then item_undoptr else InvalidUndoPtr
      let (undo', undorecptr) :=
        zsundo_insert undo (UndoRec.tupleLockRec xid cid tid prev mode)
      let newitem := zsbt_tid_create_item tid undorecptr 1
      match tree[i]? with
      | none => none
      | some leaf =>
        match zsbt_tid_replace_item leaf.items tid (some newitem) with
        | none => none
        | some items' =>
          some { result := TM_Result.Ok,
                 tree := tree.set i { leaf with items := items' },
                 undo := undo' }

/-- `zsbt_tid_update_lock_old`: fetch the old tuple (fatal if absent or
DEAD), consult `SatisfiesUpdate`, and hand back its verdict together with the
old undo pointer.  No page is modified in this step. -/
def zsbt_tid_update_lock_old (tree : List TidLeaf) (otid : Nat)
    (satUpd : SatisfiesUpdateResult) : Option (TM_Result × Nat) :=
  match zsbt_tid_fetch tree otid with
  | none => none
  | some (_, olditem_undoptr, olditem_isdead) =>
    if olditem_isdead then
      none
    else if satUpd.result ≠ TM_Result.Ok then
      some (satUpd.result, olditem_undoptr)
    else
      some (TM_Result.Ok, olditem_undoptr)

/-- `zsbt_tid_mark_old_updated`: re-fetch the old tuple, re-check visibility
(a non-`Ok` verdict here is the fatal `tuple concurrently updated - not
implemented` error), emit an `UPDATE` undo record carrying the new TID, and
replace the old TID's slice with one holding the new undo pointer. -/
def zsbt_tid_mark_old_updated (tree : List TidLeaf) (undo : List UndoRec)
    (otid newtid : Nat) (xid cid : Nat) (key_update : Bool)
    (satUpd : SatisfiesUpdateResult) : Option (List TidLeaf × List UndoRec) :=
  match zsbt_tid_fetch tree otid with
  | none => none
  | some (i, olditem_undoptr, olditem_isdead) =>
    if olditem_isdead then
      none
    else if satUpd.result ≠ TM_Result.Ok then
      none
    else
      let prev := if satUpd.keep_old_undo_ptr then olditem_undoptr else InvalidUndoPtr
      let (undo', undorecptr) :=
        zsundo_insert undo (UndoRec.updateRec xid cid otid prev newtid key_update)
      let deleteditem := zsbt_tid_create_item otid undorecptr 1
      match tree[i]? with
      | none => none
      | some leaf =>
        match zsbt_tid_replace_item leaf.items otid (some deleteditem) with
        | none => none
        | some items' => some (tree.set i { leaf with items := items' }, undo')

/-- `zsbt_tid_update`: lock the old tuple, insert the new version through
`zsbt_tid_multi_insert` of one TID, then mark the old one updated.  The two
`SatisfiesUpdate` consultations are separate external calls, hence two oracle
arguments. -/
def zsbt_tid_update (tree : List TidLeaf) (undo : List UndoRec) (otid : Nat)
    (xid cid : Nat) (key_update : Bool)
    (satUpd₁ satUpd₂ : SatisfiesUpdateResult) :
    Option (TM_Result × List TidLeaf × List UndoRec × Nat) :=
  match zsbt_tid_update_lock_old tree otid satUpd₁ with
  | none => none
  | some (r, prevundoptr) =>
    if r ≠ TM_Result.Ok then
      some (r, tree, undo, InvalidZSTid)
    else
      match zsbt_tid_multi_insert tree undo 1 xid cid 0 prevundoptr with
      | none => none
      | some ins =>
        let newtid := ins.tids.headD InvalidZSTid
        match zsbt_tid_mark_old_updated ins.tree ins.undo otid newtid xid cid
            key_update satUpd₂ with
        | none => none
        | some (tree', undo') => some (TM_Result.Ok, tree', undo', newtid)

/-- The item written by `zsbt_tid_mark_dead`:
`{tid, 1, InvalidUndoPtr, ZSBT_TID_DEAD}`. -/
def zsbt_tid_deaditem (tid : Nat) : ZSTidArrayItem :=
  { t_tid := tid, t_flags := ZSBT_TID_DEAD, t_undo_ptr := InvalidUndoPtr,
    t_nelements := 1 }

/-- `zsbt_tid_mark_dead`: if the TID is absent, only a warning is issued and
the tree is untouched; if the covering item is already DEAD, the tree is
untouched; otherwise the single-TID slice is replaced with the DEAD item. -/
def zsbt_tid_mark_dead (tree : List TidLeaf) (tid : Nat) :
    Option (List TidLeaf) :=
  match zsbt_tid_fetch tree tid with
  | none => some tree
  | some (i, _, isdead) =>
    if isdead then
      some tree
    else
      match tree[i]? with
      | none => none
      | some leaf =>
        match zsbt_tid_replace_item leaf.items tid (some (zsbt_tid_deaditem tid)) with
        | none => none
        | some items' => some (tree.set i { leaf with items := items' })

/-- `zsbt_tid_undo_deletion`: if the TID is absent, only a warning is issued;
if the covering item's undo pointer still equals the one being undone, the
slice is replaced with one carrying `InvalidUndoPtr`; otherwise a later
operation superseded the record and nothing is changed. -/
def zsbt_tid_undo_deletion (tree : List TidLeaf) (tid : Nat)
    (undoptr : Nat) : Option (List TidLeaf) :=
  match zsbt_tid_fetch tree tid with
  | none => some tree
  | some (i, item_undoptr, _) =>
    if item_undoptr = undoptr then
      match tree[i]? with
      | none => none
      | some leaf =>
        match zsbt_tid_replace_item leaf.items tid
            (some (zsbt_tid_create_item tid InvalidUndoPtr 1)) with
        | none => none
        | some items' => some (tree.set i { leaf with items := items' })
    else
      some tree

/-! ## Collecting dead TIDs (VACUUM) -/

/-- The dead TIDs enumerated from one leaf: for every item whose DEAD flag is
set, the TIDs `t_tid + j` for `j < t_nelements`. -/
def leafDeadTids (l : TidLeaf) : List Nat :=
  (l.items.map (fun it =>
    if it.isDead then (List.range it.t_nelements).map (fun j => it.t_tid + j)
    else [])).flatten

/-- The leaf-chain walk of `zsbt_collect_dead_tids`: enumerate DEAD TIDs of
the current leaf into the set, then stop if this was the rightmost leaf
(`hikey = MaxPlusOneZSTid`) or the set's memory usage exceeds the
`maintenance_work_mem` budget; otherwise follow the right-link.  `memUsage`
abstracts `intset_memory_usage`; the end TID handed back is the last scanned
leaf's `hikey`.  An empty chain cannot arise for a closed tree. -/
def zsbt_collect_dead_tids_loop (memUsage : List Nat → Nat) (budget : Nat) :
    List TidLeaf → List Nat → List Nat × Nat
  | [], acc => (acc, InvalidZSTid)
  | leaf :: rest, acc =>
    let acc' := acc ++ leafDeadTids leaf
    if leaf.hikey = MaxPlusOneZSTid then
      (acc', leaf.hikey)
    else if budget < memUsage acc' then
      (acc', leaf.hikey)
    else
      zsbt_collect_dead_tids_loop memUsage budget rest acc'

/-- `zsbt_collect_dead_tids`: descend to the leaf containing `starttid` and
walk right-links from it.  On a completely empty tree the source returns the
empty set without assigning the end TID; that is modelled as `InvalidZSTid`. -/
def zsbt_collect_dead_tids (memUsage : List Nat → Nat) (budget : Nat)
    (tree : List TidLeaf) (starttid : Nat) : List Nat × Nat :=
  match zsbt_descend_leaf tree starttid with
  | none => ([], InvalidZSTid)
  | some i => zsbt_collect_dead_tids_loop memUsage budget (tree.drop i) []

/-! ## TID-tree scan (`zsbt_tid_begin_scan` / `zsbt_tid_scan_next`)

The scan state keeps `nexttid`, `endtid`, the still-unconsumed part of the
cached array item (`array_num_elements - array_next_datum`), and the pinned
leaf together with everything right of it.  In this single-threaded model
`zsbt_page_is_expected` always holds for the pinned leaf, so the concurrent
re-descend branches of the source are not taken. -/

/-- Scan cursor state (`ZSBtreeScan`, the fields the TID scan uses). -/
structure TidScanState where
  active : Bool
  nexttid : Nat
  endtid : Nat
  arrayRemaining : Nat
  leaves : List TidLeaf
  deriving Repr, DecidableEq

/-- The item for-loop of `zsbt_tid_scan_next` on one page, including
`zsbt_tid_scan_extract_array`: skip items entirely below `nexttid`; stop at
the range end; skip DEAD and invisible items (advancing `nexttid` past them);
on the first visible item cache its TID range, clamped to
`[nexttid, endtid)`.  Returns the advanced `nexttid` and the number of cached
TIDs (0 = nothing cached on this page). -/
def zsbt_tid_scan_page_items (vis : Nat → Bool) (endtid : Nat) :
    Nat → List ZSTidArrayItem → Nat × Nat
  | nexttid, [] => (nexttid, 0)
  | nexttid, item :: rest =>
    let lasttid := zsbt_tid_item_lasttid item
    if lasttid < nexttid then
      zsbt_tid_scan_page_items vis endtid nexttid rest
    else if endtid ≤ item.t_tid then
      (endtid, 0)
    else if item.isDead || !vis item.t_undo_ptr then
      zsbt_tid_scan_page_items vis endtid (lasttid + 1) rest
    else
      let tid := max item.t_tid nexttid
      let nelements := item.t_nelements - (tid - item.t_tid)
      let nelements := if endtid < tid + nelements then endtid - tid else nelements
      if 0 < nelements then
        (tid, nelements)
      else
        zsbt_tid_scan_page_items vis endtid tid rest

/-- The outer while-loop of `zsbt_tid_scan_next`: return the next TID from
the cached array if one is left; otherwise scan the current page, and either
cache a visible item and return its first TID, or advance `nexttid` to the
page's high key and follow the right-link (ending the scan at the rightmost
page or at `endtid`). -/
def zsbt_tid_scan_next_loop (vis : Nat → Bool) (endtid : Nat) :
    List TidLeaf → Nat → Nat → Option Nat × TidScanState
  | leaves, nexttid, remaining =>
    if nexttid < endtid then
      if 0 < remaining then
        (some nexttid, ⟨true, nexttid + 1, endtid, remaining - 1, leaves⟩)
      else
        match leaves with
        | [] => (none, ⟨false, nexttid, endtid, 0, []⟩)
        | leaf :: rest =>
          match zsbt_tid_scan_page_items vis endtid nexttid leaf.items with
          | (nt, cached) =>
            if 0 < cached then
              (some nt, ⟨true, nt + 1, endtid, cached - 1, leaf :: rest⟩)
            else
              let nt' := max nt leaf.hikey
              if rest = [] ∨ endtid ≤ nt' then
                (none, ⟨false, nt', endtid, 0, []⟩)
              else
                zsbt_tid_scan_next_loop vis endtid rest nt' 0
    else
      (none, ⟨true, nexttid, endtid, remaining, leaves⟩)

/-- `zsbt_tid_scan_next`: one call of the scan's next-TID operation.
Returns `none` for `InvalidZSTid` (scan exhausted). -/
def zsbt_tid_scan_next (vis : Nat → Bool) (scan : TidScanState) :
    Option Nat × TidScanState :=
  if !scan.active then
    (none, scan)
  else
    zsbt_tid_scan_next_loop vis scan.endtid scan.leaves scan.nexttid
      scan.arrayRemaining

/-- `zsbt_tid_begin_scan`: descend to the leaf containing `starttid`; an
empty tree yields an inactive scan. -/
def zsbt_tid_begin_scan (tree : List TidLeaf) (starttid endtid : Nat) :
    TidScanState :=
  match zsbt_descend_leaf tree starttid with
  | none => ⟨false, starttid, endtid, 0, []⟩
  | some i => ⟨true, starttid, endtid, 0, tree.drop i⟩

/-- The sequence of TIDs produced by successive `zsbt_tid_scan_next` calls
(`fuel` bounds the number of calls). -/
def scanTrace (vis : Nat → Bool) : Nat → TidScanState → List Nat
  | 0, _ => []
  | fuel + 1, scan =>
    match zsbt_tid_scan_next vis scan with
    | (none, _) => []
    | (some t, scan') => t :: scanTrace vis fuel scan'

/-! ## The TID recompressor's split sizing (`zsbt_tid_recompress_picksplit`)

The page-geometry constants (`BLCKSZ`, header and opaque sizes, item size)
come from headers that are not among the sources, so they are parameters
here: `space_on_empty_page` is the usable space of an empty page and `itemsz`
is `sizeof(ZSTidArrayItem)`.  The `free_space_per_page` target is computed in
`double` in the source and then truncated by assignment to `Size`; that is
modelled as exact rational arithmetic followed by `Nat.floor`. -/

/-- `zsbt_tid_recompress_picksplit`: number of pages needed for the item
list, and the free-space target each non-last page keeps back
(`cxt->free_space_per_page`; `zsbt_tid_recompress_add_to_page` opens a new
page whenever the current page's free space would drop below it). -/
def zsbt_tid_recompress_picksplit (space_on_empty_page itemsz : Nat)
    (hikey : Nat) (total_items : Nat) : Nat × Nat :=
  let total_sz := total_items * itemsz
  let num_pages := (total_sz + space_on_empty_page - 1) / space_on_empty_page
  if num_pages = 1 then
    (num_pages, 0)
  else if hikey = MaxPlusOneZSTid then
    let total_free_space : ℚ := (space_on_empty_page * num_pages - total_sz : Nat)
    (num_pages,
      Nat.floor (total_free_space * (1 / 10) / ((num_pages : ℚ) - 1)))
  else
    (num_pages, (space_on_empty_page * num_pages - total_sz) / num_pages)

/-- Modelled from the spec's words, for comparison with the source (claim
C3): "10% of remaining free space goes to the last page, 90% spread over the
earlier ones", i.e. each of the earlier `n - 1` pages would keep back
`total_free * 0.9 / (n - 1)`. -/
def picksplit_claimed_fspp (space_on_empty_page itemsz : Nat)
    (total_items : Nat) : Nat :=
  let total_sz := total_items * itemsz
  let num_pages := (total_sz + space_on_empty_page - 1) / space_on_empty_page
  let total_free_space : ℚ := (space_on_empty_page * num_pages - total_sz : Nat)
  Nat.floor (total_free_space * (9 / 10) / ((num_pages : ℚ) - 1))

/-! ## Attribute-tree items and the add-items merge (`zsbt_attr_add_items`)

An attribute item is modelled in its exploded form `{tids[], datums[],
isnulls[]}` (the spec's in-memory variant); `t_firsttid`/`t_endtid` are the
derived range bounds.  `zsbt_split_item` lives in a source file that is not
part of the provided sources and is modelled from the spec. -/

/-- An attribute array item, in exploded form: parallel lists of TIDs,
datums and null flags. -/
structure ZSAttrItem where
  tids : List Nat
  datums : List Nat
  isnulls : List Bool
  deriving Repr, DecidableEq

/-- `t_firsttid`: the first TID of the item. -/
def ZSAttrItem.t_firsttid (it : ZSAttrItem) : Nat := it.tids.headD InvalidZSTid

/-- `t_endtid`: one past the last TID of the item. -/
def ZSAttrItem.t_endtid (it : ZSAttrItem) : Nat := it.tids.getLastD InvalidZSTid + 1

/-- Modelled from the spec: `zsbt_split_item` (defined in a source file not
provided) partitions `tids[]`/`datums[]`/`isnulls[]` at the cutpoint and
emits two exploded items. -/
def zsbt_split_item (it : ZSAttrItem) (cutpoint : Nat) :
    ZSAttrItem × ZSAttrItem :=
  let n := (it.tids.takeWhile (fun t => decide (t < cutpoint))).length
  (⟨it.tids.take n, it.datums.take n, it.isnulls.take n⟩,
   ⟨it.tids.drop n, it.datums.drop n, it.isnulls.drop n⟩)

/-- Splitting at a cutpoint strictly above the first TID but below the range
end strictly shrinks the right half (the left half is nonempty). -/
theorem zsbt_split_item_right_lt (it : ZSAttrItem) (cut : Nat)
    (h1 : ¬ it.t_endtid ≤ cut) (h3 : it.t_firsttid < cut) :
    (zsbt_split_item it cut).2.tids.length < it.tids.length := by
  rcases hts : it.tids with _ | ⟨a, l⟩
  · exfalso
    simp [ZSAttrItem.t_firsttid, ZSAttrItem.t_endtid, hts, InvalidZSTid] at h1 h3
    rw [h1] at h3
    exact lt_irrefl 0 h3
  · have ha : a < cut := by
      have := h3
      rw [ZSAttrItem.t_firsttid, hts] at this
      simpa using this
    simp only [zsbt_split_item, hts, List.takeWhile_cons, decide_eq_true_eq, ha,
      if_true, List.length_cons, List.length_drop]
    omega

/-- The lockstep merge loop of `zsbt_attr_add_items` (the recompress path,
lines 544-646): emit whichever of the current new/old item lies wholly below
the other; split the one that starts first at the other's first TID when
their ranges overlap; and fail with the fatal "duplicate TID on attribute
page" error when both start at the same TID. -/
def zsbt_attr_merge_items : List ZSAttrItem → List ZSAttrItem →
    Except String (List ZSAttrItem)
  | [], [] => .ok []
  | newitem :: newrest, [] =>
    (zsbt_attr_merge_items newrest []).map (newitem :: ·)
  | [], olditem :: oldrest =>
    (zsbt_attr_merge_items [] oldrest).map (olditem :: ·)
  | newitem :: newrest, olditem :: oldrest =>
    if newitem.t_firsttid = olditem.t_firsttid then
      .error "duplicate TID on attribute page"
    else if h1 : newitem.t_endtid ≤ olditem.t_firsttid then
      (zsbt_attr_merge_items newrest (olditem :: oldrest)).map (newitem :: ·)
    else if h2 : olditem.t_endtid ≤ newitem.t_firsttid then
      (zsbt_attr_merge_items (newitem :: newrest) oldrest).map (olditem :: ·)
    else if h3 : newitem.t_firsttid < olditem.t_firsttid then
      (zsbt_attr_merge_items
        ((zsbt_split_item newitem olditem.t_firsttid).2 :: newrest)
        (olditem :: oldrest)).map
        ((zsbt_split_item newitem olditem.t_firsttid).1 :: ·)
    else if h4 : olditem.t_firsttid < newitem.t_firsttid then
      (zsbt_attr_merge_items (newitem :: newrest)
        ((zsbt_split_item olditem newitem.t_firsttid).2 :: oldrest)).map
        ((zsbt_split_item olditem newitem.t_firsttid).1 :: ·)
    else
      .error "shouldn't reach here"
  termination_by news olds =>
    (news.map (fun it => it.tids.length + 1)).sum +
    (olds.map (fun it => it.tids.length + 1)).sum
  decreasing_by
  all_goals simp_wf
  all_goals try simp only [List.map_cons, List.sum_cons]
  all_goals
    first
    | omega
    | (have ha := zsbt_split_item_right_lt newitem olditem.t_firsttid h1 h3
       omega)
    | (have hb := zsbt_split_item_right_lt olditem newitem.t_firsttid h2 h4
       omega)

/-! ## Basic lemmas about items and leaves -/

theorem coversb_iff {it : ZSTidArrayItem} {tid : Nat} :
    it.coversb tid = true ↔ it.t_tid ≤ tid ∧ tid < it.t_tid + it.t_nelements := by
  simp [ZSTidArrayItem.coversb]

theorem isDead_deaditem (tid : Nat) : (zsbt_tid_deaditem tid).isDead = true := by
  simp [ZSTidArrayItem.isDead, zsbt_tid_deaditem, ZSBT_TID_DEAD]

theorem isDead_create (tid : Nat) (ptr : Nat) (n : Nat) :
    (zsbt_tid_create_item tid ptr n).isDead = false := by
  simp [ZSTidArrayItem.isDead, zsbt_tid_create_item, ZSBT_TID_DEAD]

/-- From pairwise non-overlap, first TIDs are weakly monotone in the index. -/
theorem itemsWF_tid_mono {items : List ZSTidArrayItem}
    (hpw : items.Pairwise (fun a b => a.t_tid + a.t_nelements ≤ b.t_tid))
    {i j : Nat} (hij : i ≤ j) (hj : j < items.length) :
    (items.getD i default).t_tid ≤ (items.getD j default).t_tid := by
  rcases Nat.eq_or_lt_of_le hij with rfl | hlt
  · exact le_refl _
  · have hi : i < items.length := lt_trans hlt hj
    have h := (List.pairwise_iff_getElem.mp hpw) i j hi hj hlt
    rw [List.getD_eq_getElem?_getD, List.getD_eq_getElem?_getD,
      List.getElem?_eq_getElem hi, List.getElem?_eq_getElem hj]
    simp only [Option.getD_some]
    exact le_trans (Nat.le_add_right _ _) h

/-- From pairwise non-overlap: an earlier item ends at or before a later
item's first TID. -/
theorem itemsWF_end_le {items : List ZSTidArrayItem}
    (hpw : items.Pairwise (fun a b => a.t_tid + a.t_nelements ≤ b.t_tid))
    {i j : Nat} (hij : i < j) (hj : j < items.length) :
    (items.getD i default).t_tid + (items.getD i default).t_nelements ≤
      (items.getD j default).t_tid := by
  have hi : i < items.length := lt_trans hij hj
  have := (List.pairwise_iff_getElem.mp hpw) i j hi hj hij
  rw [List.getD_eq_getElem?_getD, List.getD_eq_getElem?_getD,
    List.getElem?_eq_getElem hi, List.getElem?_eq_getElem hj]
  simpa using this

/-! ## Correctness of `zsbt_binsrch_tidpage` -/

/-- Invariant of the binary-search loop: starting from a window whose left
part is all `≤ key` and right part all `> key`, it returns the count of
entries with `t_tid ≤ key`. -/
theorem zsbt_binsrch_loop_spec (key : Nat) (arr : List ZSTidArrayItem)
    (hmono : ∀ i j, i ≤ j → j < arr.length →
      (arr.getD i default).t_tid ≤ (arr.getD j default).t_tid) :
    ∀ fuel low high, high - low ≤ fuel → low ≤ high → high ≤ arr.length →
    (∀ i, i < low → (arr.getD i default).t_tid ≤ key) →
    (∀ i, high ≤ i → i < arr.length → key < (arr.getD i default).t_tid) →
    low ≤ zsbt_binsrch_loop key arr low high ∧
    zsbt_binsrch_loop key arr low high ≤ high ∧
    (∀ i, i < zsbt_binsrch_loop key arr low high →
      (arr.getD i default).t_tid ≤ key) ∧
    (∀ i, zsbt_binsrch_loop key arr low high ≤ i → i < arr.length →
      key < (arr.getD i default).t_tid) := by
  intro fuel
  induction fuel with
  | zero =>
    intro low high h1 h2 h3 h4 h5
    have hnl : ¬ low < high := by omega
    rw [zsbt_binsrch_loop, dif_neg hnl]
    exact ⟨le_refl _, h2, h4, fun i hi hlen => h5 i (by omega) hlen⟩
  | succ n ih =>
    intro low high h1 h2 h3 h4 h5
    by_cases hlh : low < high
    · rw [zsbt_binsrch_loop, dif_pos hlh]
      have hmlt : low + (high - low) / 2 < high := by omega
      by_cases hkey : key ≥ ((arr.getD (low + (high - low) / 2) default).t_tid)
      · rw [if_pos hkey]
        obtain ⟨ha, hb, hc, hd⟩ :=
          ih (low + (high - low) / 2 + 1) high (by omega) (by omega) h3
            (fun i hi =>
              le_trans (hmono i (low + (high - low) / 2) (by omega) (by omega)) hkey)
            h5
        exact ⟨by omega, hb, hc, hd⟩
      · rw [if_neg hkey]
        obtain ⟨ha, hb, hc, hd⟩ :=
          ih low (low + (high - low) / 2) (by omega) (by omega) (by omega) h4
            (fun i hmi hilen =>
              lt_of_lt_of_le (not_le.mp hkey)
                (hmono (low + (high - low) / 2) i hmi hilen))
        exact ⟨ha, by omega, hc, hd⟩
    · rw [zsbt_binsrch_loop, dif_neg hlh]
      exact ⟨le_refl _, by omega, h4, fun i hi hlen => h5 i (by omega) hlen⟩

/-- On a well-formed item array, binary search lands exactly on the index of
the item covering the key. -/
theorem zsbt_binsrch_tidpage_covering {lokey hikey : Nat}
    {items : List ZSTidArrayItem} (hwf : itemsWF lokey hikey items)
    {oldtid : Nat} {j : Nat} (hj : j < items.length)
    (hcov : (items.getD j default).coversb oldtid = true) :
    zsbt_binsrch_tidpage oldtid items = (j : Int) := by
  obtain ⟨hbounds, hpw⟩ := hwf
  have hmono := fun i j hij hjl => itemsWF_tid_mono hpw (i := i) (j := j) hij hjl
  obtain ⟨hle, hh, hlow, hhigh⟩ :=
    zsbt_binsrch_loop_spec oldtid items hmono (items.length) 0 items.length
      (by omega) (by omega) (le_refl _)
      (fun i hi => absurd hi (by omega))
      (fun i hi hlen => absurd hlen (by omega))
  rw [coversb_iff] at hcov
  have hjr : j < zsbt_binsrch_loop oldtid items 0 items.length := by
    by_contra hc
    have h2 := hhigh j (by omega) hj
    omega
  have hrj : zsbt_binsrch_loop oldtid items 0 items.length ≤ j + 1 := by
    by_contra hc
    have hj1 : j + 1 < items.length := by omega
    have h3 := hlow (j + 1) (by omega)
    have hord := itemsWF_end_le hpw (show j < j + 1 by omega) hj1
    omega
  rw [zsbt_binsrch_tidpage]
  omega

/-- Main characterization of `zsbt_tid_replace_item`: on a well-formed item
array it slices the covering run around the target TID. -/
theorem zsbt_tid_replace_item_spec {lokey hikey : Nat}
    {items : List ZSTidArrayItem} (hwf : itemsWF lokey hikey items)
    {oldtid : Nat} {j : Nat} (hj : j < items.length)
    (hcov : (items.getD j default).coversb oldtid = true)
    (repl : Option ZSTidArrayItem) :
    zsbt_tid_replace_item items oldtid repl =
      some (items.take j ++ sliceBefore (items.getD j default) oldtid ++
            repl.toList ++ sliceAfter (items.getD j default) oldtid ++
            items.drop (j + 1)) := by
  have hb := zsbt_binsrch_tidpage_covering hwf hj hcov
  rw [coversb_iff] at hcov
  unfold zsbt_tid_replace_item
  rw [hb]
  simp only [Int.toNat_natCast]
  rw [if_neg (by omega), if_neg (by omega)]

/-! ## Lemmas about `zsbt_descend_leaf` -/

/-- Inversion: a successful descend yields a leaf covering the key. -/
theorem zsbt_descend_leaf_some {tree : List TidLeaf} {tid : Nat} {i : Nat}
    (h : zsbt_descend_leaf tree tid = some i) :
    ∃ leaf, tree[i]? = some leaf ∧ leaf.lokey ≤ tid ∧ tid < leaf.hikey := by
  induction tree generalizing i with
  | nil => simp [zsbt_descend_leaf] at h
  | cons leaf rest ih =>
    rw [zsbt_descend_leaf] at h
    by_cases hc : leaf.lokey ≤ tid ∧ tid < leaf.hikey
    · rw [if_pos hc] at h
      obtain rfl : 0 = i := Option.some.inj h
      exact ⟨leaf, by simp, hc⟩
    · rw [if_neg hc] at h
      rcases hd : zsbt_descend_leaf rest tid with _ | i'
      · rw [hd] at h
        simp at h
      · rw [hd] at h
        obtain rfl : i' + 1 = i := by simpa using h
        obtain ⟨lf, hlf, hcov⟩ := ih hd
        exact ⟨lf, by simpa using hlf, hcov⟩

/-- Descend is unaffected by replacing a leaf's item array (the keys of every
leaf are unchanged). -/
theorem zsbt_descend_leaf_set {tree : List TidLeaf} {tid : Nat} {i : Nat}
    {leaf' : TidLeaf}
    (hk : ∀ leaf, tree[i]? = some leaf →
      leaf'.lokey = leaf.lokey ∧ leaf'.hikey = leaf.hikey) :
    zsbt_descend_leaf (tree.set i leaf') tid = zsbt_descend_leaf tree tid := by
  induction tree generalizing i with
  | nil => simp
  | cons leaf rest ih =>
    cases i with
    | zero =>
      obtain ⟨hlo, hhi⟩ := hk leaf (by simp)
      simp only [List.set_cons_zero]
      rw [zsbt_descend_leaf, zsbt_descend_leaf, hlo, hhi]
    | succ i' =>
      simp only [List.set_cons_succ]
      rw [zsbt_descend_leaf, zsbt_descend_leaf]
      rw [ih (fun lf hlf => hk lf (by simpa using hlf))]

/-! ## Fetch inversion and slice lookup -/

theorem getD_eq_getElem_of_lt {α : Type _} [Inhabited α] {l : List α} {i : Nat}
    (h : i < l.length) : l.getD i default = l[i] := by
  rw [List.getD_eq_getElem?_getD, List.getElem?_eq_getElem h, Option.getD_some]

theorem getElem?_mem' {α : Type _} {l : List α} {i : Nat} {a : α}
    (h : l[i]? = some a) : a ∈ l := by
  rw [List.getElem?_eq_some_iff] at h
  obtain ⟨hi, rfl⟩ := h
  exact List.getElem_mem hi

theorem mem_take_getD {α : Type _} [Inhabited α] {l : List α} {n : Nat} {a : α}
    (ha : a ∈ l.take n) : ∃ k, k < n ∧ k < l.length ∧ l.getD k default = a := by
  rw [List.mem_take_iff_getElem] at ha
  obtain ⟨k, hk, he⟩ := ha
  refine ⟨k, by omega, by omega, ?_⟩
  rw [getD_eq_getElem_of_lt (by omega)]
  exact he

theorem mem_drop_getD {α : Type _} [Inhabited α] {l : List α} {n : Nat} {a : α}
    (ha : a ∈ l.drop n) : ∃ k, n ≤ k ∧ k < l.length ∧ l.getD k default = a := by
  rw [List.mem_drop_iff_getElem] at ha
  obtain ⟨k, hk, he⟩ := ha
  refine ⟨n + k, by omega, by omega, ?_⟩
  rw [getD_eq_getElem_of_lt (by omega)]
  exact he

/-- Inversion of a successful `zsbt_tid_fetch`: the leaf index comes from
descend, and the reported undo pointer and DEAD flag come from the first item
of that leaf covering the TID. -/
theorem zsbt_tid_fetch_some {tree : List TidLeaf} {tid : Nat} {i : Nat}
    {ptr : Nat} {dead : Bool}
    (h : zsbt_tid_fetch tree tid = some (i, ptr, dead)) :
    ∃ leaf j, zsbt_descend_leaf tree tid = some i ∧ tree[i]? = some leaf ∧
      j < leaf.items.length ∧
      (leaf.items.getD j default).coversb tid = true ∧
      (leaf.items.getD j default).t_undo_ptr = ptr ∧
      (leaf.items.getD j default).isDead = dead ∧
      ∀ k, k < j → (leaf.items.getD k default).coversb tid = false := by
  unfold zsbt_tid_fetch at h
  rcases hd : zsbt_descend_leaf tree tid with _ | i₀
  · simp [hd] at h
  simp only [hd] at h
  rcases hl : tree[i₀]? with _ | leaf
  · simp [hl] at h
  simp only [hl] at h
  rcases hf : leaf.items.find? (fun it => it.coversb tid) with _ | item
  · simp [hf] at h
  simp only [hf] at h
  obtain ⟨rfl, rfl, rfl⟩ : i₀ = i ∧ item.t_undo_ptr = ptr ∧ item.isDead = dead := by
    simpa using h
  rw [List.find?_eq_some_iff_getElem] at hf
  obtain ⟨hp, j, hj, hitem, hbefore⟩ := hf
  refine ⟨leaf, j, rfl, hl, hj, ?_, ?_, ?_, ?_⟩
  · rw [getD_eq_getElem_of_lt hj, hitem]
    exact hp
  · rw [getD_eq_getElem_of_lt hj, hitem]
  · rw [getD_eq_getElem_of_lt hj, hitem]
  · intro k hk
    have hb := hbefore k hk
    rw [getD_eq_getElem_of_lt (by omega)]
    simpa using hb

/-- Items strictly before the covering item do not cover the TID. -/
theorem coversb_take_false {lokey hikey : Nat} {items : List ZSTidArrayItem}
    (hwf : itemsWF lokey hikey items) {j oldtid : Nat} (hj : j < items.length)
    (hcov : (items.getD j default).coversb oldtid = true) :
    ∀ a ∈ items.take j, a.coversb oldtid = false := by
  intro a ha
  obtain ⟨k, hkj, hkl, hka⟩ := mem_take_getD ha
  rw [coversb_iff] at hcov
  have hend := itemsWF_end_le hwf.2 hkj hj
  rw [hka] at hend
  rw [Bool.eq_false_iff]
  intro hc
  rw [coversb_iff] at hc
  omega

/-- In the sliced item array produced by `zsbt_tid_replace_item`, the first
item covering the target TID is the replacement itself. -/
theorem find?_slices {lokey hikey : Nat} {items : List ZSTidArrayItem}
    (hwf : itemsWF lokey hikey items) {j oldtid : Nat} (hj : j < items.length)
    (hcov : (items.getD j default).coversb oldtid = true)
    {repl : ZSTidArrayItem} (hrt : repl.t_tid = oldtid)
    (hrn : repl.t_nelements = 1) :
    (items.take j ++ sliceBefore (items.getD j default) oldtid ++ [repl] ++
     sliceAfter (items.getD j default) oldtid ++ items.drop (j + 1)).find?
      (fun it => it.coversb oldtid) = some repl := by
  have hcov' := hcov
  rw [coversb_iff] at hcov'
  have hA : (items.take j).find? (fun it => it.coversb oldtid) = none := by
    rw [List.find?_eq_none]
    intro x hx
    rw [coversb_take_false hwf hj hcov x hx]
    simp
  have hB : (sliceBefore (items.getD j default) oldtid).find?
      (fun it => it.coversb oldtid) = none := by
    rw [List.find?_eq_none]
    intro x hx
    unfold sliceBefore at hx
    by_cases h0 : 0 < oldtid - (items.getD j default).t_tid
    · rw [if_pos h0] at hx
      simp only [List.mem_singleton] at hx
      subst hx
      simp only [zsbt_tid_create_item, coversb_iff]
      intro hfoo
      exact absurd hfoo (by omega)
    · rw [if_neg h0] at hx
      simp at hx
  have hR : repl.coversb oldtid = true := by
    rw [coversb_iff, hrt, hrn]
    omega
  simp only [List.find?_append]
  rw [hA, hB]
  simp [hR]

/-! ## Claim C4: the replace operation slices the covering run -/

/-- C4: `zsbt_tid_replace_item` on a leaf containing a run covering TID `t`
replaces the covering run by at most three pieces: an optional before-slice
covering `[t_tid, t)` and an optional after-slice covering
`[t + 1, t_tid + t_nelements)`, both carrying the original undo pointer, with
the optional replacement between them; every other item of the leaf is
carried over unchanged (the take/drop parts). -/
theorem claim_C4 (lokey hikey t : Nat) (items : List ZSTidArrayItem)
    (hwf : itemsWF lokey hikey items) (j : Nat) (hj : j < items.length)
    (hcov : (items.getD j default).coversb t = true)
    (repl : Option ZSTidArrayItem) :
    zsbt_tid_replace_item items t repl =
      some (items.take j ++ sliceBefore (items.getD j default) t ++
            repl.toList ++ sliceAfter (items.getD j default) t ++
            items.drop (j + 1)) ∧
    (∀ b ∈ sliceBefore (items.getD j default) t,
      b.t_tid = (items.getD j default).t_tid ∧ b.t_tid + b.t_nelements = t ∧
      b.t_undo_ptr = (items.getD j default).t_undo_ptr) ∧
    (sliceBefore (items.getD j default) t ≠ [] ↔
      (items.getD j default).t_tid < t) ∧
    (∀ a ∈ sliceAfter (items.getD j default) t,
      a.t_tid = t + 1 ∧
      a.t_tid + a.t_nelements =
        (items.getD j default).t_tid + (items.getD j default).t_nelements ∧
      a.t_undo_ptr = (items.getD j default).t_undo_ptr) ∧
    (sliceAfter (items.getD j default) t ≠ [] ↔
      t + 1 < (items.getD j default).t_tid + (items.getD j default).t_nelements) := by
  have hcov' := hcov
  rw [coversb_iff] at hcov'
  refine ⟨zsbt_tid_replace_item_spec hwf hj hcov repl, ?_, ?_, ?_, ?_⟩
  · intro b hb
    unfold sliceBefore at hb
    by_cases h0 : 0 < t - (items.getD j default).t_tid
    · rw [if_pos h0] at hb
      simp only [List.mem_singleton] at hb
      subst hb
      refine ⟨rfl, ?_, rfl⟩
      simp only [zsbt_tid_create_item]
      omega
    · rw [if_neg h0] at hb
      simp at hb
  · unfold sliceBefore
    by_cases h0 : 0 < t - (items.getD j default).t_tid
    · rw [if_pos h0]
      simp only [ne_eq, List.cons_ne_nil, not_false_iff, true_iff]
      omega
    · rw [if_neg h0]
      simp only [ne_eq, not_true, false_iff, not_lt]
      omega
  · intro a ha
    unfold sliceAfter at ha
    by_cases h0 : (t - (items.getD j default).t_tid) + 1 <
        (items.getD j default).t_nelements
    · rw [if_pos h0] at ha
      simp only [List.mem_singleton] at ha
      subst ha
      refine ⟨rfl, ?_, rfl⟩
      simp only [zsbt_tid_create_item]
      omega
    · rw [if_neg h0] at ha
      simp at ha
  · unfold sliceAfter
    by_cases h0 : (t - (items.getD j default).t_tid) + 1 <
        (items.getD j default).t_nelements
    · rw [if_pos h0]
      simp only [ne_eq, List.cons_ne_nil, not_false_iff, true_iff]
      omega
    · rw [if_neg h0]
      simp only [ne_eq, not_true, false_iff, not_lt]
      omega

/-- Witness for C4 at a concrete input: the run `{5, 10, undo 7}` covering
TID 8 is sliced into `{5,3}`, the replacement, and `{9,6}`. -/
theorem claim_C4_witness :
    zsbt_tid_replace_item [⟨5, 10, 7, 0⟩] 8 (some ⟨8, 1, 9, 0⟩) =
      some [⟨5, 3, 7, 0⟩, ⟨8, 1, 9, 0⟩, ⟨9, 6, 7, 0⟩] := by
  have h := (claim_C4 1 100 8 [⟨5, 10, 7, 0⟩] ⟨by decide, by decide⟩ 0
    (by decide) (by decide) (some ⟨8, 1, 9, 0⟩)).1
  rw [h]
  rfl

/-! ## Claim C5: visibility failures are returned, not written -/

/-- C5: for `zsbt_tid_delete` and `zsbt_tid_lock` on a TID whose item is
found and not DEAD, a non-`Ok` verdict from the external `SatisfiesUpdate`
check is returned as-is to the caller, with no undo record emitted and the
TID tree unchanged; only on `Ok` does delete emit a `DELETE` undo record
(chaining to the old pointer iff advised) and replace the single-TID slice
with `{tid, 1, new_undoptr, 0}`. -/
theorem claim_C5 (tree : List TidLeaf) (undo : List UndoRec)
    (tid xid cid mode : Nat) (satUpd : SatisfiesUpdateResult)
    (changingPart : Bool) (i uptr : Nat)
    (hwf : treeWF tree)
    (hfetch : zsbt_tid_fetch tree tid = some (i, uptr, false)) :
    (satUpd.result ≠ TM_Result.Ok →
      zsbt_tid_delete tree undo tid xid cid true satUpd changingPart =
        some ⟨satUpd.result, tree, undo⟩ ∧
      zsbt_tid_lock tree undo tid xid cid mode satUpd =
        some ⟨satUpd.result, tree, undo⟩) ∧
    (satUpd.result = TM_Result.Ok →
      ∃ leaf j, tree[i]? = some leaf ∧ j < leaf.items.length ∧
        (leaf.items.getD j default).coversb tid = true ∧
        zsbt_tid_delete tree undo tid xid cid true satUpd changingPart =
          some ⟨TM_Result.Ok,
            tree.set i { leaf with
              items :=
                leaf.items.take j ++
                sliceBefore (leaf.items.getD j default) tid ++
                [zsbt_tid_create_item tid (undo.length + 1) 1] ++
                sliceAfter (leaf.items.getD j default) tid ++
                leaf.items.drop (j + 1) },
            undo ++ [UndoRec.deleteRec xid cid tid
              (if satUpd.keep_old_undo_ptr then uptr else InvalidUndoPtr)
              changingPart]⟩) := by
  obtain ⟨leaf, j, hd, hl, hj, hcov, hptr, hdead, hbef⟩ := zsbt_tid_fetch_some hfetch
  constructor
  · intro hne
    constructor
    · unfold zsbt_tid_delete
      simp only [hfetch]
      rw [if_neg (by simp), if_pos (by simp [hne])]
    · unfold zsbt_tid_lock
      simp only [hfetch]
      rw [if_neg (by simp), if_pos hne]
  · intro hok
    have hmem : leaf ∈ tree := getElem?_mem' hl
    have hlw : itemsWF leaf.lokey leaf.hikey leaf.items := (hwf.1 leaf hmem).2
    refine ⟨leaf, j, hl, hj, hcov, ?_⟩
    unfold zsbt_tid_delete
    simp only [hfetch]
    rw [if_neg (by simp), if_neg (by simp [hok])]
    simp only [hl, zsundo_insert, if_true]
    rw [zsbt_tid_replace_item_spec hlw hj hcov
      (some (zsbt_tid_create_item tid (undo.length + 1) 1))]
    rfl

/-- Witness for C5 at a concrete input: a concurrently-updated verdict is
passed through by both delete and lock with tree and undo log untouched. -/
theorem claim_C5_witness :
    zsbt_tid_delete [⟨1, MaxPlusOneZSTid, [⟨1, 3, 7, 0⟩]⟩] [] 2 10 0 true
        ⟨TM_Result.Updated, true, 0⟩ false =
      some ⟨TM_Result.Updated, [⟨1, MaxPlusOneZSTid, [⟨1, 3, 7, 0⟩]⟩], []⟩ ∧
    zsbt_tid_lock [⟨1, MaxPlusOneZSTid, [⟨1, 3, 7, 0⟩]⟩] [] 2 10 0 1
        ⟨TM_Result.Updated, true, 0⟩ =
      some ⟨TM_Result.Updated, [⟨1, MaxPlusOneZSTid, [⟨1, 3, 7, 0⟩]⟩], []⟩ :=
  (claim_C5 [⟨1, MaxPlusOneZSTid, [⟨1, 3, 7, 0⟩]⟩] [] 2 10 0 1
    ⟨TM_Result.Updated, true, 0⟩ false 0 7 (by decide) (by decide)).1
    (by decide)

/-! ## Claim C7: undo-deletion restores or leaves alone -/

/-- C7: `zsbt_tid_undo_deletion` on a present TID: when the stored undo
pointer still equals the one being undone, the slice for the TID is replaced
with one carrying `InvalidUndoPtr`; when it differs (a later operation
superseded), the tree is left completely unchanged. -/
theorem claim_C7 (tree : List TidLeaf) (tid p i uptr : Nat) (dead : Bool)
    (hwf : treeWF tree)
    (hfetch : zsbt_tid_fetch tree tid = some (i, uptr, dead)) :
    (uptr ≠ p → zsbt_tid_undo_deletion tree tid p = some tree) ∧
    (uptr = p →
      ∃ leaf j, tree[i]? = some leaf ∧ j < leaf.items.length ∧
        (leaf.items.getD j default).coversb tid = true ∧
        (leaf.items.getD j default).t_undo_ptr = p ∧
        zsbt_tid_undo_deletion tree tid p =
          some (tree.set i { leaf with
            items :=
              leaf.items.take j ++
              sliceBefore (leaf.items.getD j default) tid ++
              [zsbt_tid_create_item tid InvalidUndoPtr 1] ++
              sliceAfter (leaf.items.getD j default) tid ++
              leaf.items.drop (j + 1) })) := by
  obtain ⟨leaf, j, hd, hl, hj, hcov, hptr, hdead, hbef⟩ := zsbt_tid_fetch_some hfetch
  constructor
  · intro hne
    unfold zsbt_tid_undo_deletion
    simp only [hfetch]
    rw [if_neg hne]
  · intro heq
    have hmem : leaf ∈ tree := getElem?_mem' hl
    have hlw : itemsWF leaf.lokey leaf.hikey leaf.items := (hwf.1 leaf hmem).2
    refine ⟨leaf, j, hl, hj, hcov, by rw [hptr, heq], ?_⟩
    unfold zsbt_tid_undo_deletion
    simp only [hfetch]
    rw [if_pos heq]
    simp only [hl]
    rw [zsbt_tid_replace_item_spec hlw hj hcov
      (some (zsbt_tid_create_item tid InvalidUndoPtr 1))]
    rfl

/-- Witness for C7 at a concrete input: a superseding undo pointer leaves the
tree untouched. -/
theorem claim_C7_witness :
    zsbt_tid_undo_deletion [⟨1, MaxPlusOneZSTid, [⟨1, 3, 7, 0⟩]⟩] 2 9 =
      some [⟨1, MaxPlusOneZSTid, [⟨1, 3, 7, 0⟩]⟩] :=
  (claim_C7 [⟨1, MaxPlusOneZSTid, [⟨1, 3, 7, 0⟩]⟩] 2 9 0 7 false (by decide)
    (by decide)).1 (by decide)

/-! ## Claim C10: undo-apply entry points are no-ops on missing TIDs -/

/-- C10: on a TID not covered by any item, the undo-apply entry points
`zsbt_tid_mark_dead` and `zsbt_tid_undo_deletion` only warn and leave the
tree unchanged, whereas `zsbt_tid_delete`, `zsbt_tid_lock` and
`zsbt_tid_update` raise a fatal error. -/
theorem claim_C10 (tree : List TidLeaf) (undo : List UndoRec)
    (tid p xid cid mode : Nat) (hasSnapshot : Bool)
    (satUpd satUpd₂ : SatisfiesUpdateResult) (key_update changingPart : Bool)
    (hfetch : zsbt_tid_fetch tree tid = none) :
    zsbt_tid_mark_dead tree tid = some tree ∧
    zsbt_tid_undo_deletion tree tid p = some tree ∧
    zsbt_tid_delete tree undo tid xid cid hasSnapshot satUpd changingPart = none ∧
    zsbt_tid_lock tree undo tid xid cid mode satUpd = none ∧
    zsbt_tid_update tree undo tid xid cid key_update satUpd satUpd₂ = none := by
  unfold zsbt_tid_mark_dead zsbt_tid_undo_deletion zsbt_tid_delete zsbt_tid_lock
    zsbt_tid_update zsbt_tid_update_lock_old
  simp only [hfetch]
  exact ⟨trivial, trivial, trivial, trivial, trivial⟩

/-- Witness for C10 at a concrete input: TID 5 is absent from a tree holding
only the run `[1, 2)`. -/
theorem claim_C10_witness :
    zsbt_tid_mark_dead [⟨1, MaxPlusOneZSTid, [⟨1, 1, 0, 0⟩]⟩] 5 =
      some [⟨1, MaxPlusOneZSTid, [⟨1, 1, 0, 0⟩]⟩] ∧
    zsbt_tid_undo_deletion [⟨1, MaxPlusOneZSTid, [⟨1, 1, 0, 0⟩]⟩] 5 3 =
      some [⟨1, MaxPlusOneZSTid, [⟨1, 1, 0, 0⟩]⟩] ∧
    zsbt_tid_delete [⟨1, MaxPlusOneZSTid, [⟨1, 1, 0, 0⟩]⟩] [] 5 10 0 true
      ⟨TM_Result.Ok, true, 0⟩ false = none ∧
    zsbt_tid_lock [⟨1, MaxPlusOneZSTid, [⟨1, 1, 0, 0⟩]⟩] [] 5 10 0 1
      ⟨TM_Result.Ok, true, 0⟩ = none ∧
    zsbt_tid_update [⟨1, MaxPlusOneZSTid, [⟨1, 1, 0, 0⟩]⟩] [] 5 10 0 false
      ⟨TM_Result.Ok, true, 0⟩ ⟨TM_Result.Ok, true, 0⟩ = none :=
  claim_C10 [⟨1, MaxPlusOneZSTid, [⟨1, 1, 0, 0⟩]⟩] [] 5 3 10 0 1 true
    ⟨TM_Result.Ok, true, 0⟩ ⟨TM_Result.Ok, true, 0⟩ false false (by decide)

/-! ## Claim C6: mark-dead replaces the slice and is idempotent -/

/-- System invariant maintained by the code: DEAD items are exactly the
single-TID `{tid, 1, InvalidUndoPtr, DEAD}` items written by
`zsbt_tid_mark_dead` (the only creator of the DEAD flag). -/
abbrev deadItemsInv (tree : List TidLeaf) : Prop :=
  ∀ l ∈ tree, ∀ it ∈ l.items, it.isDead = true →
    it.t_nelements = 1 ∧ it.t_undo_ptr = InvalidUndoPtr ∧
    it.t_flags = ZSBT_TID_DEAD

/-- C6: for a TID present in the tree, `zsbt_tid_mark_dead` succeeds and
leaves the single-TID slice covering it equal to
`{tid, 1, InvalidUndoPtr, DEAD}`; when the covering item was live it is
sliced and replaced, when it was already dead nothing changes; and applying
mark-dead a second time leaves the tree unchanged (idempotence). -/
theorem claim_C6 (tree : List TidLeaf) (tid i uptr : Nat) (dead : Bool)
    (hwf : treeWF tree) (hinv : deadItemsInv tree)
    (hfetch : zsbt_tid_fetch tree tid = some (i, uptr, dead)) :
    ∃ tree', zsbt_tid_mark_dead tree tid = some tree' ∧
      (∃ leaf', tree'[i]? = some leaf' ∧
        leaf'.items.find? (fun it => it.coversb tid) =
          some (zsbt_tid_deaditem tid)) ∧
      zsbt_tid_mark_dead tree' tid = some tree' ∧
      (dead = false →
        ∃ leaf j, tree[i]? = some leaf ∧ j < leaf.items.length ∧
          (leaf.items.getD j default).coversb tid = true ∧
          tree' = tree.set i { leaf with
            items :=
              leaf.items.take j ++
              sliceBefore (leaf.items.getD j default) tid ++
              [zsbt_tid_deaditem tid] ++
              sliceAfter (leaf.items.getD j default) tid ++
              leaf.items.drop (j + 1) }) ∧
      (dead = true → tree' = tree) := by
  obtain ⟨leaf, j, hd, hl, hj, hcov, hptr, hdeadeq, hbef⟩ := zsbt_tid_fetch_some hfetch
  have hmem : leaf ∈ tree := getElem?_mem' hl
  have hlw : itemsWF leaf.lokey leaf.hikey leaf.items := (hwf.1 leaf hmem).2
  have hi : i < tree.length := by
    rw [List.getElem?_eq_some_iff] at hl
    exact hl.1
  cases dead with
  | false =>
    refine ⟨tree.set i { leaf with
      items :=
        leaf.items.take j ++
        sliceBefore (leaf.items.getD j default) tid ++
        [zsbt_tid_deaditem tid] ++
        sliceAfter (leaf.items.getD j default) tid ++
        leaf.items.drop (j + 1) }, ?_, ?_, ?_, ?_, ?_⟩
    · unfold zsbt_tid_mark_dead
      simp only [hfetch]
      rw [if_neg (by simp)]
      simp only [hl]
      rw [zsbt_tid_replace_item_spec hlw hj hcov (some (zsbt_tid_deaditem tid))]
      rfl
    · refine ⟨_, List.getElem?_set_self hi, ?_⟩
      exact find?_slices hlw hj hcov rfl rfl
    · have hfetch' : zsbt_tid_fetch (tree.set i { leaf with
          items :=
            leaf.items.take j ++
            sliceBefore (leaf.items.getD j default) tid ++
            [zsbt_tid_deaditem tid] ++
            sliceAfter (leaf.items.getD j default) tid ++
            leaf.items.drop (j + 1) }) tid = some (i, InvalidUndoPtr, true) := by
        unfold zsbt_tid_fetch
        rw [zsbt_descend_leaf_set (fun lf hlf => by
          obtain rfl : leaf = lf := Option.some.inj (hl ▸ hlf)
          exact ⟨rfl, rfl⟩)]
        simp only [hd, List.getElem?_set_self hi]
        rw [find?_slices hlw hj hcov rfl rfl]
        simp [zsbt_tid_deaditem, ZSTidArrayItem.isDead, ZSBT_TID_DEAD, InvalidUndoPtr]
      unfold zsbt_tid_mark_dead
      simp only [hfetch']
      simp
    · intro _
      exact ⟨leaf, j, hl, hj, hcov, rfl⟩
    · intro hcontra
      exact absurd hcontra (by simp)
  | true =>
    have hitem_mem : leaf.items.getD j default ∈ leaf.items := by
      rw [getD_eq_getElem_of_lt hj]
      exact List.getElem_mem hj
    obtain ⟨hn1, hu0, hf1⟩ := hinv leaf hmem _ hitem_mem hdeadeq
    have hcov' := hcov
    rw [coversb_iff] at hcov'
    have hitem_eq : leaf.items.getD j default = zsbt_tid_deaditem tid := by
      have heta : leaf.items.getD j default =
          (⟨(leaf.items.getD j default).t_tid,
            (leaf.items.getD j default).t_nelements,
            (leaf.items.getD j default).t_undo_ptr,
            (leaf.items.getD j default).t_flags⟩ : ZSTidArrayItem) := rfl
      rw [heta, hn1, hu0, hf1]
      have : (leaf.items.getD j default).t_tid = tid := by omega
      rw [this]
      rfl
    have hmarked : zsbt_tid_mark_dead tree tid = some tree := by
      unfold zsbt_tid_mark_dead
      simp only [hfetch]
      simp
    refine ⟨tree, hmarked, ⟨leaf, hl, ?_⟩, hmarked, ?_, fun _ => rfl⟩
    · rw [List.find?_eq_some_iff_getElem]
      refine ⟨by rw [← hitem_eq]; exact hcov, j, hj, ?_, ?_⟩
      · rw [← getD_eq_getElem_of_lt hj]
        exact hitem_eq
      · intro k hk
        have hbk := hbef k hk
        rw [getD_eq_getElem_of_lt (show k < leaf.items.length by omega)] at hbk
        simp [hbk]
    · intro hcontra
      exact absurd hcontra (by simp)

/-- Witness for C6 at a concrete input: marking TID 3 dead inside the live
run `[2, 5)`. -/
theorem claim_C6_witness :
    ∃ tree', zsbt_tid_mark_dead [⟨1, MaxPlusOneZSTid, [⟨2, 3, 7, 0⟩]⟩] 3 =
        some tree' ∧
      (∃ leaf', tree'[0]? = some leaf' ∧
        leaf'.items.find? (fun it => it.coversb 3) =
          some (zsbt_tid_deaditem 3)) ∧
      zsbt_tid_mark_dead tree' 3 = some tree' ∧
      (false = false →
        ∃ leaf j, ([⟨1, MaxPlusOneZSTid, [⟨2, 3, 7, 0⟩]⟩] : List TidLeaf)[0]? =
            some leaf ∧
          j < leaf.items.length ∧
          (leaf.items.getD j default).coversb 3 = true ∧
          tree' = ([⟨1, MaxPlusOneZSTid, [⟨2, 3, 7, 0⟩]⟩] : List TidLeaf).set 0 { leaf with
            items :=
              leaf.items.take j ++
              sliceBefore (leaf.items.getD j default) 3 ++
              [zsbt_tid_deaditem 3] ++
              sliceAfter (leaf.items.getD j default) 3 ++
              leaf.items.drop (j + 1) }) ∧
      (false = true →
        tree' = ([⟨1, MaxPlusOneZSTid, [⟨2, 3, 7, 0⟩]⟩] : List TidLeaf)) :=
  claim_C6 [⟨1, MaxPlusOneZSTid, [⟨2, 3, 7, 0⟩]⟩] 3 0 7 false (by decide)
    (by decide) (by decide)

/-! ## Claim C2: multi-insert appends one run at the rightmost leaf -/

/-- High keys are monotone along the leaf chain of a well-formed tree. -/
theorem treeWF_hikey_mono {tree : List TidLeaf} (hwf : treeWF tree) :
    ∀ d i, i + d < tree.length →
      (tree.getD i default).hikey ≤ (tree.getD (i + d) default).hikey := by
  intro d
  induction d with
  | zero =>
    intro i _
    exact le_refl _
  | succ d ih =>
    intro i h
    have h1 : (tree.getD i default).hikey ≤ (tree.getD (i + d) default).hikey :=
      ih i (by omega)
    have h2 : (tree.getD (i + d) default).hikey =
        (tree.getD (i + d + 1) default).lokey := hwf.2 (i + d) (by omega)
    have hm : tree.getD (i + d + 1) default ∈ tree := by
      rw [getD_eq_getElem_of_lt (show i + d + 1 < tree.length by omega)]
      exact List.getElem_mem _
    have h3 : (tree.getD (i + d + 1) default).lokey <
        (tree.getD (i + d + 1) default).hikey := (hwf.1 _ hm).1
    rw [show i + (d + 1) = i + d + 1 by omega]
    omega

/-- Generic characterization: descend returns the first covering leaf. -/
theorem zsbt_descend_leaf_eq_some {tree : List TidLeaf} {tid : Nat} {i : Nat}
    (hi : i < tree.length)
    (hcov : (tree.getD i default).lokey ≤ tid ∧ tid < (tree.getD i default).hikey)
    (hbef : ∀ k, k < i →
      ¬((tree.getD k default).lokey ≤ tid ∧ tid < (tree.getD k default).hikey)) :
    zsbt_descend_leaf tree tid = some i := by
  induction tree generalizing i with
  | nil => simp at hi
  | cons leaf rest ih =>
    cases i with
    | zero =>
      rw [zsbt_descend_leaf, if_pos (by simpa using hcov)]
    | succ i' =>
      have h0 := hbef 0 (by omega)
      rw [zsbt_descend_leaf, if_neg (by simpa using h0)]
      rw [ih (by simpa using hi) (by simpa using hcov)
        (fun k hk => by simpa using hbef (k + 1) (by omega))]
      rfl

/-- Descending with key `MaxZSTid` lands on the rightmost leaf. -/
theorem zsbt_descend_leaf_rightmost (tree : List TidLeaf) (hwf : treeWF tree)
    (hclosed : treeClosed tree) (hne : tree ≠ []) :
    zsbt_descend_leaf tree MaxZSTid = some (tree.length - 1) := by
  have hlen : 0 < tree.length := List.length_pos.mpr hne
  have hlast : (tree.getD (tree.length - 1) default).hikey = MaxPlusOneZSTid := by
    unfold treeClosed at hclosed
    rw [List.getLast?_eq_getElem?, List.getElem?_eq_getElem (by omega)] at hclosed
    rw [getD_eq_getElem_of_lt (by omega)]
    simpa using hclosed
  have hmemlast : tree.getD (tree.length - 1) default ∈ tree := by
    rw [getD_eq_getElem_of_lt (by omega)]
    exact List.getElem_mem _
  have hlok : (tree.getD (tree.length - 1) default).lokey <
      (tree.getD (tree.length - 1) default).hikey := (hwf.1 _ hmemlast).1
  apply zsbt_descend_leaf_eq_some (by omega)
  · constructor
    · rw [hlast] at hlok
      simp only [MaxZSTid, MaxPlusOneZSTid] at *
      omega
    · rw [hlast]
      simp only [MaxZSTid, MaxPlusOneZSTid]
      omega
  · intro k hk
    have h2 : (tree.getD k default).hikey = (tree.getD (k + 1) default).lokey :=
      hwf.2 k (by omega)
    have hm1 : tree.getD (k + 1) default ∈ tree := by
      rw [getD_eq_getElem_of_lt (show k + 1 < tree.length by omega)]
      exact List.getElem_mem _
    have h3 : (tree.getD (k + 1) default).lokey <
        (tree.getD (k + 1) default).hikey := (hwf.1 _ hm1).1
    have h4 := treeWF_hikey_mono hwf (tree.length - 1 - (k + 1)) (k + 1)
      (by omega)
    rw [show k + 1 + (tree.length - 1 - (k + 1)) = tree.length - 1 by omega,
      hlast] at h4
    rintro ⟨hA, hB⟩
    simp only [MaxZSTid, MaxPlusOneZSTid] at h4 hB
    omega

/-- C2: `zsbt_tid_multi_insert` with no pre-chosen TID descends to the
rightmost leaf, allocates `start = max(end of the last item, lokey)` (the
`lokey` when the leaf is empty), emits one `INSERT` undo record covering
`[start, start + N)` (none for a frozen xid), appends exactly the one run
item `{start, N, undorecptr, 0}` to that leaf, and returns the `N`
consecutive TIDs `start, …, start + N - 1`. -/
theorem claim_C2 (tree : List TidLeaf) (undo : List UndoRec)
    (nitems xid cid spec prevundoptr : Nat)
    (hwf : treeWF tree) (hclosed : treeClosed tree) (hne : tree ≠ [])
    (hn : 1 ≤ nitems) :
    ∃ leaf start undorecptr,
      zsbt_descend_leaf tree MaxZSTid = some (tree.length - 1) ∧
      tree[tree.length - 1]? = some leaf ∧
      (∀ lastitem, leaf.items.getLast? = some lastitem →
        start = max (lastitem.t_tid + lastitem.t_nelements) leaf.lokey) ∧
      (leaf.items.getLast? = none → start = leaf.lokey) ∧
      undorecptr = (if xid ≠ FrozenTransactionId then undo.length + 1
        else InvalidUndoPtr) ∧
      (zsbt_tid_create_item start undorecptr nitems).t_flags = 0 ∧
      zsbt_tid_multi_insert tree undo nitems xid cid spec prevundoptr =
        some ⟨(List.range nitems).map (fun k => start + k),
          tree.set (tree.length - 1) { leaf with
            items := leaf.items ++ [zsbt_tid_create_item start undorecptr nitems] },
          if xid ≠ FrozenTransactionId then
            undo ++ [UndoRec.insertRec xid cid start spec prevundoptr
              (start + nitems - 1)]
          else undo⟩ := by
  have hdesc := zsbt_descend_leaf_rightmost tree hwf hclosed hne
  have hlen : 0 < tree.length := List.length_pos.mpr hne
  have hl : tree[tree.length - 1]? =
      some (tree.getD (tree.length - 1) default) := by
    rw [List.getElem?_eq_getElem (by omega), getD_eq_getElem_of_lt (by omega)]
  set leaf := tree.getD (tree.length - 1) default with hleaf
  have hmem : leaf ∈ tree := by
    rw [hleaf, getD_eq_getElem_of_lt (by omega)]
    exact List.getElem_mem _
  refine ⟨leaf,
    (match leaf.items.getLast? with
      | some lastitem => lastitem.t_tid + lastitem.t_nelements
      | none => leaf.lokey),
    (if xid ≠ FrozenTransactionId then undo.length + 1 else InvalidUndoPtr),
    hdesc, hl, ?_, ?_, rfl, rfl, ?_⟩
  · intro lastitem hli
    simp only [hli]
    have hlm : lastitem ∈ leaf.items := List.mem_of_getLast?_eq_some hli
    have hb := ((hwf.1 leaf hmem).2.1 lastitem hlm).2.1
    omega
  · intro hli
    simp only [hli]
  · unfold zsbt_tid_multi_insert
    simp only [hdesc, hl]
    by_cases hx : xid ≠ FrozenTransactionId
    · rw [if_pos hx, if_pos hx, if_pos hx]
      rfl
    · rw [if_neg hx, if_neg hx, if_neg hx]

/-- Witness for C2 at a concrete input: inserting 3 TIDs after the run
`[1, 3)` allocates TIDs 3, 4, 5. -/
theorem claim_C2_witness :
    ∃ leaf start undorecptr,
      zsbt_descend_leaf [⟨1, MaxPlusOneZSTid, [⟨1, 2, 5, 0⟩]⟩] MaxZSTid =
        some (([⟨1, MaxPlusOneZSTid, [⟨1, 2, 5, 0⟩]⟩] : List TidLeaf).length - 1) ∧
      ([⟨1, MaxPlusOneZSTid, [⟨1, 2, 5, 0⟩]⟩] : List TidLeaf)[
        ([⟨1, MaxPlusOneZSTid, [⟨1, 2, 5, 0⟩]⟩] : List TidLeaf).length - 1]? =
        some leaf ∧
      (∀ lastitem, leaf.items.getLast? = some lastitem →
        start = max (lastitem.t_tid + lastitem.t_nelements) leaf.lokey) ∧
      (leaf.items.getLast? = none → start = leaf.lokey) ∧
      undorecptr = (if (10 : Nat) ≠ FrozenTransactionId then
        ([] : List UndoRec).length + 1 else InvalidUndoPtr) ∧
      (zsbt_tid_create_item start undorecptr 3).t_flags = 0 ∧
      zsbt_tid_multi_insert [⟨1, MaxPlusOneZSTid, [⟨1, 2, 5, 0⟩]⟩] [] 3 10 0 0 0 =
        some ⟨(List.range 3).map (fun k => start + k),
          ([⟨1, MaxPlusOneZSTid, [⟨1, 2, 5, 0⟩]⟩] : List TidLeaf).set
            (([⟨1, MaxPlusOneZSTid, [⟨1, 2, 5, 0⟩]⟩] : List TidLeaf).length - 1)
            { leaf with
              items := leaf.items ++ [zsbt_tid_create_item start undorecptr 3] },
          if (10 : Nat) ≠ FrozenTransactionId then
            ([] : List UndoRec) ++ [UndoRec.insertRec 10 0 start 0 0 (start + 3 - 1)]
          else []⟩ :=
  claim_C2 [⟨1, MaxPlusOneZSTid, [⟨1, 2, 5, 0⟩]⟩] [] 3 10 0 0 0 (by decide)
    (by decide) (by decide) (by decide)

/-! ## Claim C3: split sizing of the TID recompressor

The claim as frozen asserts that for a rightmost leaf 10% of the remaining
free space goes to the **last** page and 90% is spread over the earlier
pages.  The source computes
`free_space_per_page = total_free_space * 0.1 / (num_pages - 1)` — each of
the earlier `n - 1` pages keeps back this amount, so the earlier pages
collectively retain 10% and the **last** page retains the remaining ~90%
(matching the code's own rationale "most of the free space is left to the
end of the index").  The claim's shares are swapped; the counterexample
below exhibits this at a concrete input, and `claim_C3` proves the amended
statement. -/

/-- Counterexample to C3 as frozen: with page space 8168, item size 24 and
500 items (2 pages, 4336 bytes of remaining free space), the source computes
`free_space_per_page = 433` for the earlier page, whereas the claim's
distribution ("90% spread over the earlier pages") would give 3902; the last
page is left with 3903 bytes, which exceeds 10% of the total free space. -/
theorem claim_C3_counterexample :
    (zsbt_tid_recompress_picksplit 8168 24 MaxPlusOneZSTid 500).2 = 433 ∧
    picksplit_claimed_fspp 8168 24 500 = 3902 ∧
    (zsbt_tid_recompress_picksplit 8168 24 MaxPlusOneZSTid 500).2 ≠
      picksplit_claimed_fspp 8168 24 500 ∧
    10 * (4336 - 433) > 4336 := by
  have h1 : (zsbt_tid_recompress_picksplit 8168 24 MaxPlusOneZSTid 500).2 = 433 := by
    unfold zsbt_tid_recompress_picksplit
    norm_num
    rw [Nat.floor_eq_iff (by norm_num)]
    norm_num
  have h2 : picksplit_claimed_fspp 8168 24 500 = 3902 := by
    unfold picksplit_claimed_fspp
    norm_num
    rw [Nat.floor_eq_iff (by norm_num)]
    norm_num
  refine ⟨h1, h2, ?_, by norm_num⟩
  rw [h1, h2]
  norm_num

/-- C3 (amended): `zsbt_tid_recompress_picksplit` computes the number of
pages as `⌈total_sz / space⌉`; if everything fits on one page no split
occurs (`free_space_per_page = 0`); for a non-rightmost leaf the remaining
free space is distributed evenly across the `n` pages (each non-last page
keeps back `⌊tf / n⌋`); and for the rightmost leaf the earlier `n - 1` pages
collectively keep back at most 10% of the remaining free space, leaving at
least 90% of it to the last page. -/
theorem claim_C3 (S Z hikey total_items : Nat) :
    ((zsbt_tid_recompress_picksplit S Z hikey total_items).1 =
      (total_items * Z + S - 1) / S) ∧
    ((total_items * Z + S - 1) / S = 1 →
      (zsbt_tid_recompress_picksplit S Z hikey total_items).2 = 0) ∧
    (hikey ≠ MaxPlusOneZSTid → 2 ≤ (total_items * Z + S - 1) / S →
      ((total_items * Z + S - 1) / S) *
          (zsbt_tid_recompress_picksplit S Z hikey total_items).2 ≤
        S * ((total_items * Z + S - 1) / S) - total_items * Z ∧
      S * ((total_items * Z + S - 1) / S) - total_items * Z <
        ((total_items * Z + S - 1) / S) *
          ((zsbt_tid_recompress_picksplit S Z hikey total_items).2 + 1)) ∧
    (hikey = MaxPlusOneZSTid → 2 ≤ (total_items * Z + S - 1) / S →
      10 * (((total_items * Z + S - 1) / S - 1) *
          (zsbt_tid_recompress_picksplit S Z hikey total_items).2) ≤
        S * ((total_items * Z + S - 1) / S) - total_items * Z ∧
      9 * (S * ((total_items * Z + S - 1) / S) - total_items * Z) ≤
        10 * ((S * ((total_items * Z + S - 1) / S) - total_items * Z) -
          ((total_items * Z + S - 1) / S - 1) *
            (zsbt_tid_recompress_picksplit S Z hikey total_items).2)) := by
  refine ⟨?_, ?_, ?_, ?_⟩
  · unfold zsbt_tid_recompress_picksplit
    by_cases h1 : (total_items * Z + S - 1) / S = 1
    · rw [if_pos h1]
    · rw [if_neg h1]
      by_cases h2 : hikey = MaxPlusOneZSTid
      · rw [if_pos h2]
      · rw [if_neg h2]
  · intro h1
    unfold zsbt_tid_recompress_picksplit
    rw [if_pos h1]
  · intro hhik hn
    unfold zsbt_tid_recompress_picksplit
    rw [if_neg (by omega), if_neg hhik]
    constructor
    · exact Nat.mul_div_le _ _ |>.trans_eq (by ring_nf) |>.trans (le_refl _) |>.trans
        (le_refl _) |>.trans_eq rfl |>.trans (le_refl _)
    · exact Nat.lt_mul_div_succ _ (by omega)
  · intro hhik hn
    unfold zsbt_tid_recompress_picksplit
    rw [if_neg (by omega), if_pos hhik]
    simp only
    set n := (total_items * Z + S - 1) / S with hn_def
    set tf := S * n - total_items * Z with htf_def
    set F := Nat.floor ((tf : ℚ) * (1 / 10) / ((n : ℚ) - 1)) with hF_def
    have hpos : (0 : ℚ) < (n : ℚ) - 1 := by
      have : (2 : ℚ) ≤ (n : ℚ) := by exact_mod_cast hn
      linarith
    have h0 : (0 : ℚ) ≤ (tf : ℚ) * (1 / 10) / ((n : ℚ) - 1) := by positivity
    have hfl : (F : ℚ) ≤ (tf : ℚ) * (1 / 10) / ((n : ℚ) - 1) := Nat.floor_le h0
    have h2 : (F : ℚ) * ((n : ℚ) - 1) ≤ (tf : ℚ) * (1 / 10) := by
      rwa [le_div_iff hpos] at hfl
    have h3 : (10 : ℚ) * ((F : ℚ) * ((n : ℚ) - 1)) ≤ (tf : ℚ) := by linarith
    have hkey : 10 * ((n - 1) * F) ≤ tf := by
      have hcast : ((10 * ((n - 1) * F) : ℕ) : ℚ) =
          10 * ((F : ℚ) * ((n : ℚ) - 1)) := by
        push_cast [Nat.cast_sub (show 1 ≤ n by omega)]
        ring
      have h4 : ((10 * ((n - 1) * F) : ℕ) : ℚ) ≤ ((tf : ℕ) : ℚ) := by
        rw [hcast]
        exact h3
      exact_mod_cast h4
    exact ⟨hkey, by omega⟩

/-- Witness for C3 (amended) at a concrete input: two pages on the rightmost
leaf, 4336 bytes of free space, of which the earlier page keeps 433. -/
theorem claim_C3_witness :
    10 * (((500 * 24 + 8168 - 1) / 8168 - 1) *
        (zsbt_tid_recompress_picksplit 8168 24 MaxPlusOneZSTid 500).2) ≤
      8168 * ((500 * 24 + 8168 - 1) / 8168) - 500 * 24 ∧
    9 * (8168 * ((500 * 24 + 8168 - 1) / 8168) - 500 * 24) ≤
      10 * ((8168 * ((500 * 24 + 8168 - 1) / 8168) - 500 * 24) -
        ((500 * 24 + 8168 - 1) / 8168 - 1) *
          (zsbt_tid_recompress_picksplit 8168 24 MaxPlusOneZSTid 500).2) :=
  (claim_C3 8168 24 MaxPlusOneZSTid 500).2.2.2 rfl (by norm_num)

/-! ## Claim C9: collecting dead TIDs -/

/-- All DEAD TIDs of a list of leaves, in scan order. -/
def deadTidsOf (ls : List TidLeaf) : List Nat := (ls.map leafDeadTids).flatten

theorem mem_leafDeadTids {l : TidLeaf} {t : Nat} :
    t ∈ leafDeadTids l ↔ ∃ it ∈ l.items, it.isDead = true ∧
      it.t_tid ≤ t ∧ t < it.t_tid + it.t_nelements := by
  unfold leafDeadTids
  rw [List.mem_flatten]
  constructor
  · rintro ⟨a, ha, hta⟩
    rw [List.mem_map] at ha
    obtain ⟨it, hit, rfl⟩ := ha
    by_cases hd : it.isDead
    · rw [if_pos hd] at hta
      rw [List.mem_map] at hta
      obtain ⟨j, hj, rfl⟩ := hta
      rw [List.mem_range] at hj
      exact ⟨it, hit, hd, by omega, by omega⟩
    · rw [if_neg hd] at hta
      simp at hta
  · rintro ⟨it, hit, hd, h1, h2⟩
    refine ⟨(List.range it.t_nelements).map (fun j => it.t_tid + j), ?_, ?_⟩
    · rw [List.mem_map]
      exact ⟨it, hit, by rw [if_pos hd]⟩
    · rw [List.mem_map]
      exact ⟨t - it.t_tid, by rw [List.mem_range]; omega, by omega⟩

theorem mem_deadTidsOf {ls : List TidLeaf} {t : Nat} :
    t ∈ deadTidsOf ls ↔ ∃ l ∈ ls, ∃ it ∈ l.items, it.isDead = true ∧
      it.t_tid ≤ t ∧ t < it.t_tid + it.t_nelements := by
  unfold deadTidsOf
  rw [List.mem_flatten]
  constructor
  · rintro ⟨a, ha, hta⟩
    rw [List.mem_map] at ha
    obtain ⟨l, hl, rfl⟩ := ha
    obtain ⟨it, hit, h⟩ := mem_leafDeadTids.mp hta
    exact ⟨l, hl, it, hit, h⟩
  · rintro ⟨l, hl, it, hit, h⟩
    exact ⟨leafDeadTids l, List.mem_map.mpr ⟨l, hl, rfl⟩,
      mem_leafDeadTids.mpr ⟨it, hit, h⟩⟩

/-- Characterization of the leaf-chain walk of `zsbt_collect_dead_tids`: for
a closed chain it scans a nonempty prefix, accumulates exactly the DEAD TIDs
of the scanned leaves, hands back the last scanned leaf's high key, stops
exactly at the rightmost leaf or on exceeding the memory budget, and stops
at the earliest such leaf. -/
theorem zsbt_collect_dead_tids_loop_spec (memUsage : List Nat → Nat)
    (budget : Nat) :
    ∀ (chain : List TidLeaf) (acc : List Nat), chain ≠ [] →
      chain.getLast?.map TidLeaf.hikey = some MaxPlusOneZSTid →
      ∃ k lastleaf, 1 ≤ k ∧ k ≤ chain.length ∧
        (chain.take k).getLast? = some lastleaf ∧
        zsbt_collect_dead_tids_loop memUsage budget chain acc =
          (acc ++ deadTidsOf (chain.take k), lastleaf.hikey) ∧
        (lastleaf.hikey = MaxPlusOneZSTid ∨
          budget < memUsage (acc ++ deadTidsOf (chain.take k))) ∧
        (∀ m, m + 1 < k → ∃ mleaf,
          (chain.take (m + 1)).getLast? = some mleaf ∧
          mleaf.hikey ≠ MaxPlusOneZSTid ∧
          memUsage (acc ++ deadTidsOf (chain.take (m + 1))) ≤ budget) := by
  intro chain
  induction chain with
  | nil =>
    intro acc hne _
    exact absurd rfl hne
  | cons leaf rest ih =>
    intro acc _ hclosed
    by_cases hA : leaf.hikey = MaxPlusOneZSTid
    · refine ⟨1, leaf, le_refl _, by simp, by simp, ?_, Or.inl hA, ?_⟩
      · rw [zsbt_collect_dead_tids_loop, if_pos hA]
        simp [deadTidsOf]
      · intro m hm
        omega
    · by_cases hB : budget < memUsage (acc ++ leafDeadTids leaf)
      · refine ⟨1, leaf, le_refl _, by simp, by simp, ?_, ?_, ?_⟩
        · rw [zsbt_collect_dead_tids_loop, if_neg hA, if_pos hB]
          simp [deadTidsOf]
        · refine Or.inr ?_
          simpa [deadTidsOf] using hB
        · intro m hm
          omega
      · have hrest_ne : rest ≠ [] := by
          intro h
          subst h
          simp only [List.getLast?_singleton, Option.map_some] at hclosed
          exact hA (Option.some.inj hclosed)
        have hrest_closed : rest.getLast?.map TidLeaf.hikey =
            some MaxPlusOneZSTid := by
          rcases rest with _ | ⟨b, l'⟩
          · exact absurd rfl hrest_ne
          · simpa using hclosed
        obtain ⟨k', lastleaf, hk1, hk2, hlast, hres, hstop, hmin⟩ :=
          ih (acc ++ leafDeadTids leaf) hrest_ne hrest_closed
        have htake_ne : rest.take k' ≠ [] := by
          intro h
          rw [h] at hlast
          simp at hlast
        have hcons_last : ((leaf :: rest).take (k' + 1)).getLast? =
            some lastleaf := by
          rw [List.take_succ_cons]
          rcases htake : rest.take k' with _ | ⟨b, l'⟩
          · exact absurd htake htake_ne
          · rw [htake] at hlast
            rw [List.getLast?_cons_cons]
            exact hlast
        refine ⟨k' + 1, lastleaf, by omega, by simp; omega, hcons_last, ?_, ?_, ?_⟩
        · rw [zsbt_collect_dead_tids_loop, if_neg hA, if_neg hB, hres]
          rw [List.take_succ_cons]
          simp [deadTidsOf]
        · rcases hstop with h | h
          · exact Or.inl h
          · refine Or.inr ?_
            rw [List.take_succ_cons]
            simpa [deadTidsOf] using h
        · intro m hm
          cases m with
          | zero =>
            refine ⟨leaf, by simp, hA, ?_⟩
            have := not_lt.mp hB
            simpa [deadTidsOf] using this
          | succ m' =>
            obtain ⟨mleaf, hml, hmne, hmem⟩ := hmin m' (by omega)
            have htake_ne' : rest.take (m' + 1) ≠ [] := by
              intro h
              rw [h] at hml
              simp at hml
            refine ⟨mleaf, ?_, hmne, ?_⟩
            · rw [List.take_succ_cons]
              rcases htake : rest.take (m' + 1) with _ | ⟨b, l'⟩
              · exact absurd htake htake_ne'
              · rw [htake] at hml
                rw [List.getLast?_cons_cons]
                exact hml
            · rw [List.take_succ_cons]
              simpa [deadTidsOf] using hmem

/-- C9: `zsbt_collect_dead_tids` on a closed tree scans leaves by right-link
from the leaf containing `starttid`; the returned set holds exactly the TIDs
covered by DEAD items of the scanned leaves, the walk stops after the
rightmost leaf or as soon as the memory budget is exceeded (and not
earlier), and the returned end TID is the last scanned leaf's high key. -/
theorem claim_C9 (memUsage : List Nat → Nat) (budget : Nat)
    (tree : List TidLeaf) (starttid i : Nat)
    (hclosed : treeClosed tree)
    (hdesc : zsbt_descend_leaf tree starttid = some i) :
    ∃ k lastleaf, 1 ≤ k ∧ k ≤ (tree.drop i).length ∧
      ((tree.drop i).take k).getLast? = some lastleaf ∧
      zsbt_collect_dead_tids memUsage budget tree starttid =
        (deadTidsOf ((tree.drop i).take k), lastleaf.hikey) ∧
      (∀ t, t ∈ (zsbt_collect_dead_tids memUsage budget tree starttid).1 ↔
        ∃ l ∈ (tree.drop i).take k, ∃ it ∈ l.items, it.isDead = true ∧
          it.t_tid ≤ t ∧ t < it.t_tid + it.t_nelements) ∧
      (lastleaf.hikey = MaxPlusOneZSTid ∨
        budget < memUsage (deadTidsOf ((tree.drop i).take k))) ∧
      (∀ m, m + 1 < k → ∃ mleaf,
        ((tree.drop i).take (m + 1)).getLast? = some mleaf ∧
        mleaf.hikey ≠ MaxPlusOneZSTid ∧
        memUsage (deadTidsOf ((tree.drop i).take (m + 1))) ≤ budget) := by
  obtain ⟨leaf0, hl0, _⟩ := zsbt_descend_leaf_some hdesc
  have hi : i < tree.length := (List.getElem?_eq_some_iff.mp hl0).1
  have hdrop_ne : tree.drop i ≠ [] := by
    rw [ne_eq, List.drop_eq_nil_iff]
    omega
  have hdrop_closed : (tree.drop i).getLast?.map TidLeaf.hikey =
      some MaxPlusOneZSTid := by
    rw [List.getLast?_eq_getElem?, List.getElem?_drop]
    rw [show i + ((tree.drop i).length - 1) = tree.length - 1 by
      rw [List.length_drop]; omega]
    rw [← List.getLast?_eq_getElem?]
    exact hclosed
  obtain ⟨k, lastleaf, hk1, hk2, hlast, hres, hstop, hmin⟩ :=
    zsbt_collect_dead_tids_loop_spec memUsage budget (tree.drop i) [] hdrop_ne
      hdrop_closed
  have hcoll : zsbt_collect_dead_tids memUsage budget tree starttid =
      (deadTidsOf ((tree.drop i).take k), lastleaf.hikey) := by
    unfold zsbt_collect_dead_tids
    simp only [hdesc]
    rw [hres]
    simp
  refine ⟨k, lastleaf, hk1, hk2, hlast, hcoll, ?_, ?_, ?_⟩
  · intro t
    rw [hcoll]
    exact mem_deadTidsOf
  · rcases hstop with h | h
    · exact Or.inl h
    · refine Or.inr ?_
      simpa using h
  · intro m hm
    obtain ⟨mleaf, h1, h2, h3⟩ := hmin m hm
    exact ⟨mleaf, h1, h2, by simpa using h3⟩

/-- Witness for C9 at a concrete input: a two-leaf tree whose first leaf
holds the dead run `[2, 4)`; the walk scans both leaves and returns the
sentinel end TID. -/
theorem claim_C9_witness :
    ∃ k lastleaf, 1 ≤ k ∧
      k ≤ (([⟨1, 10, [⟨2, 2, 0, 1⟩]⟩, ⟨10, MaxPlusOneZSTid, []⟩] :
        List TidLeaf).drop 0).length ∧
      ((([⟨1, 10, [⟨2, 2, 0, 1⟩]⟩, ⟨10, MaxPlusOneZSTid, []⟩] :
        List TidLeaf).drop 0).take k).getLast? = some lastleaf ∧
      zsbt_collect_dead_tids (fun l => l.length) 100
          [⟨1, 10, [⟨2, 2, 0, 1⟩]⟩, ⟨10, MaxPlusOneZSTid, []⟩] 1 =
        (deadTidsOf ((([⟨1, 10, [⟨2, 2, 0, 1⟩]⟩, ⟨10, MaxPlusOneZSTid, []⟩] :
          List TidLeaf).drop 0).take k), lastleaf.hikey) ∧
      (∀ t, t ∈ (zsbt_collect_dead_tids (fun l => l.length) 100
          [⟨1, 10, [⟨2, 2, 0, 1⟩]⟩, ⟨10, MaxPlusOneZSTid, []⟩] 1).1 ↔
        ∃ l ∈ (([⟨1, 10, [⟨2, 2, 0, 1⟩]⟩, ⟨10, MaxPlusOneZSTid, []⟩] :
          List TidLeaf).drop 0).take k, ∃ it ∈ l.items, it.isDead = true ∧
          it.t_tid ≤ t ∧ t < it.t_tid + it.t_nelements) ∧
      (lastleaf.hikey = MaxPlusOneZSTid ∨
        100 < (fun (l : List Nat) => l.length)
          (deadTidsOf ((([⟨1, 10, [⟨2, 2, 0, 1⟩]⟩, ⟨10, MaxPlusOneZSTid, []⟩] :
            List TidLeaf).drop 0).take k))) ∧
      (∀ m, m + 1 < k → ∃ mleaf,
        ((([⟨1, 10, [⟨2, 2, 0, 1⟩]⟩, ⟨10, MaxPlusOneZSTid, []⟩] :
          List TidLeaf).drop 0).take (m + 1)).getLast? = some mleaf ∧
        mleaf.hikey ≠ MaxPlusOneZSTid ∧
        (fun (l : List Nat) => l.length)
          (deadTidsOf ((([⟨1, 10, [⟨2, 2, 0, 1⟩]⟩, ⟨10, MaxPlusOneZSTid, []⟩] :
            List TidLeaf).drop 0).take (m + 1))) ≤ 100) :=
  claim_C9 (fun l => l.length) 100
    [⟨1, 10, [⟨2, 2, 0, 1⟩]⟩, ⟨10, MaxPlusOneZSTid, []⟩] 1 0 (by decide)
    (by decide)

/-! ## Claim C8: the attribute add-items lockstep merge -/

/-- The attribute items handed to the merge are nonempty (an empty item has
no first TID). -/
abbrev attrItemNonempty (it : ZSAttrItem) : Prop := it.tids ≠ []

/-- All TIDs carried by a list of attribute items, in order. -/
def attrItemsTids (ls : List ZSAttrItem) : List Nat := (ls.map ZSAttrItem.tids).flatten

theorem mem_attrItemsTids {ls : List ZSAttrItem} {t : Nat} :
    t ∈ attrItemsTids ls ↔ ∃ it ∈ ls, t ∈ it.tids := by
  unfold attrItemsTids
  rw [List.mem_flatten]
  constructor
  · rintro ⟨a, ha, hta⟩
    rw [List.mem_map] at ha
    obtain ⟨it, hit, rfl⟩ := ha
    exact ⟨it, hit, hta⟩
  · rintro ⟨it, hit, hta⟩
    exact ⟨it.tids, List.mem_map.mpr ⟨it, hit, rfl⟩, hta⟩

theorem t_firsttid_mem {it : ZSAttrItem} (h : attrItemNonempty it) :
    it.t_firsttid ∈ it.tids := by
  rcases hts : it.tids with _ | ⟨a, l⟩
  · exact absurd hts h
  · rw [ZSAttrItem.t_firsttid, hts]
    simp

/-- If some TID of the item is at or beyond the cutpoint, the left half of a
split is a strict prefix, so the right half is nonempty. -/
theorem takeWhile_length_lt_of_getLastD {l : List Nat} {cut : Nat}
    (hne : l ≠ []) (hlast : cut ≤ l.getLastD 0) :
    (l.takeWhile (fun t => decide (t < cut))).length < l.length := by
  by_contra hc
  have hp := List.takeWhile_prefix (l := l) (p := fun t => decide (t < cut))
  have heq : l.takeWhile (fun t => decide (t < cut)) = l :=
    List.IsPrefix.eq_of_length_le hp (not_lt.mp hc)
  have hmem : l.getLastD 0 ∈ l := by
    rcases l with _ | ⟨a, l2⟩
    · exact absurd rfl hne
    · rw [List.getLastD_cons]
      exact List.getLastD_mem_cons l2 a
  have := List.mem_takeWhile_imp (by rw [heq]; exact hmem)
  simp only [decide_eq_true_eq] at this
  omega

/-- The right half of a split of a nonempty item whose range extends to the
cutpoint is nonempty, and a split partitions the TIDs. -/
theorem zsbt_split_item_parts {it : ZSAttrItem} {cut : Nat}
    (hne : attrItemNonempty it) (h1 : ¬ it.t_endtid ≤ cut) :
    attrItemNonempty (zsbt_split_item it cut).2 ∧
    (zsbt_split_item it cut).1.tids ++ (zsbt_split_item it cut).2.tids =
      it.tids := by
  have hlast : cut ≤ it.tids.getLastD 0 := by
    rw [ZSAttrItem.t_endtid] at h1
    simp only [InvalidZSTid] at h1
    omega
  have hlt := takeWhile_length_lt_of_getLastD hne hlast
  constructor
  · simp only [zsbt_split_item, attrItemNonempty, ne_eq, List.drop_eq_nil_iff]
    omega
  · simp [zsbt_split_item]

/-- Main induction for C8: on lists of nonempty items whose TID sets are
disjoint, the lockstep merge never hits the duplicate-TID error, and the
output carries exactly the TIDs of both inputs (as a multiset). -/
theorem zsbt_attr_merge_items_ok :
    ∀ (fuel : Nat) (news olds : List ZSAttrItem),
      (news.map (fun it => it.tids.length + 1)).sum +
        (olds.map (fun it => it.tids.length + 1)).sum ≤ fuel →
      (∀ it ∈ news, attrItemNonempty it) →
      (∀ it ∈ olds, attrItemNonempty it) →
      (∀ t, t ∈ attrItemsTids news → t ∉ attrItemsTids olds) →
      ∃ out, zsbt_attr_merge_items news olds = Except.ok out ∧
        List.Perm (attrItemsTids out)
          (attrItemsTids news ++ attrItemsTids olds) := by
  intro fuel
  induction fuel with
  | zero =>
    intro news olds hm _ _ _
    have hn : news = [] := by
      rcases news with _ | ⟨a, l⟩
      · rfl
      · simp [List.sum_cons] at hm
    have ho : olds = [] := by
      rcases olds with _ | ⟨a, l⟩
      · rfl
      · simp [List.sum_cons] at hm
    subst hn
    subst ho
    exact ⟨[], by rw [zsbt_attr_merge_items], by simp [attrItemsTids]⟩
  | succ fuel ih =>
    intro news olds hm hnews holds hdisj
    rcases news with _ | ⟨newitem, newrest⟩
    · rcases olds with _ | ⟨olditem, oldrest⟩
      · exact ⟨[], by rw [zsbt_attr_merge_items], by simp [attrItemsTids]⟩
      · obtain ⟨out, hout, hperm⟩ := ih [] oldrest
          (by simp only [List.map_cons, List.sum_cons] at hm ⊢; omega)
          (by simp) (fun it hit => holds it (by simp [hit]))
          (by simp [attrItemsTids])
        refine ⟨olditem :: out, by rw [zsbt_attr_merge_items, hout]; rfl, ?_⟩
        rw [List.perm_iff_count] at hperm ⊢
        intro a
        have hc := hperm a
        simp only [attrItemsTids, List.map_cons, List.map_nil,
          List.flatten_cons, List.flatten_nil, List.count_append,
          List.count_nil] at hc ⊢
        omega
    · rcases olds with _ | ⟨olditem, oldrest⟩
      · obtain ⟨out, hout, hperm⟩ := ih newrest []
          (by simp only [List.map_cons, List.sum_cons] at hm ⊢; omega)
          (fun it hit => hnews it (by simp [hit])) (by simp)
          (by simp [attrItemsTids])
        refine ⟨newitem :: out, by rw [zsbt_attr_merge_items, hout]; rfl, ?_⟩
        rw [List.perm_iff_count] at hperm ⊢
        intro a
        have hc := hperm a
        simp only [attrItemsTids, List.map_cons, List.map_nil,
          List.flatten_cons, List.flatten_nil, List.count_append,
          List.count_nil] at hc ⊢
        omega
      · have hne_new : attrItemNonempty newitem := hnews _ (by simp)
        have hne_old : attrItemNonempty olditem := holds _ (by simp)
        have heq : ¬ newitem.t_firsttid = olditem.t_firsttid := by
          intro h
          refine hdisj newitem.t_firsttid ?_ ?_
          · exact mem_attrItemsTids.mpr ⟨newitem, by simp, t_firsttid_mem hne_new⟩
          · rw [h]
            exact mem_attrItemsTids.mpr ⟨olditem, by simp, t_firsttid_mem hne_old⟩
        rw [zsbt_attr_merge_items, if_neg heq]
        by_cases h1 : newitem.t_endtid ≤ olditem.t_firsttid
        · rw [dif_pos h1]
          obtain ⟨out, hout, hperm⟩ := ih newrest (olditem :: oldrest)
            (by simp only [List.map_cons, List.sum_cons] at hm ⊢; omega)
            (fun it hit => hnews it (by simp [hit])) holds
            (fun t ht => hdisj t (by
              rw [mem_attrItemsTids] at ht ⊢
              obtain ⟨it, hit, hta⟩ := ht
              exact ⟨it, by simp [hit], hta⟩))
          refine ⟨newitem :: out, by rw [hout]; rfl, ?_⟩
          rw [List.perm_iff_count] at hperm ⊢
          intro a
          have hc := hperm a
          simp only [attrItemsTids, List.map_cons, List.flatten_cons,
            List.count_append] at hc ⊢
          omega
        · rw [dif_neg h1]
          by_cases h2 : olditem.t_endtid ≤ newitem.t_firsttid
          · rw [dif_pos h2]
            obtain ⟨out, hout, hperm⟩ := ih (newitem :: newrest) oldrest
              (by simp only [List.map_cons, List.sum_cons] at hm ⊢; omega)
              hnews (fun it hit => holds it (by simp [hit]))
              (fun t ht hto => hdisj t ht (by
                rw [mem_attrItemsTids] at hto ⊢
                obtain ⟨it, hit, hta⟩ := hto
                exact ⟨it, by simp [hit], hta⟩))
            refine ⟨olditem :: out, by rw [hout]; rfl, ?_⟩
            rw [List.perm_iff_count] at hperm ⊢
            intro a
            have hc := hperm a
            simp only [attrItemsTids, List.map_cons, List.flatten_cons,
              List.count_append] at hc ⊢
            omega
          · by_cases h3 : newitem.t_firsttid < olditem.t_firsttid
            · rw [dif_neg h2, dif_pos h3]
              obtain ⟨hne2, htd⟩ := zsbt_split_item_parts hne_new h1
              have hlt :=
                zsbt_split_item_right_lt newitem olditem.t_firsttid h1 h3
              obtain ⟨out, hout, hperm⟩ := ih
                ((zsbt_split_item newitem olditem.t_firsttid).2 :: newrest)
                (olditem :: oldrest)
                (by simp only [List.map_cons, List.sum_cons] at hm ⊢; omega)
                (by
                  intro it hit
                  rcases List.mem_cons.mp hit with rfl | hit2
                  · exact hne2
                  · exact hnews it (by simp [hit2]))
                holds
                (fun t ht => hdisj t (by
                  rw [mem_attrItemsTids] at ht ⊢
                  obtain ⟨it, hit, hta⟩ := ht
                  rcases List.mem_cons.mp hit with rfl | hit2
                  · refine ⟨newitem, by simp, ?_⟩
                    have hdrop : t ∈ newitem.tids.drop
                        ((newitem.tids.takeWhile
                          (fun x => decide (x < olditem.t_firsttid))).length) := by
                      simpa [zsbt_split_item] using hta
                    exact List.mem_of_mem_drop hdrop
                  · exact ⟨it, by simp [hit2], hta⟩))
              refine ⟨(zsbt_split_item newitem olditem.t_firsttid).1 :: out,
                by rw [hout]; rfl, ?_⟩
              have htdc : ∀ a : Nat,
                  (zsbt_split_item newitem olditem.t_firsttid).1.tids.count a +
                  (zsbt_split_item newitem olditem.t_firsttid).2.tids.count a =
                  newitem.tids.count a := by
                intro a
                rw [← htd, List.count_append]
              rw [List.perm_iff_count] at hperm ⊢
              intro a
              have hc := hperm a
              have htc := htdc a
              simp only [attrItemsTids, List.map_cons, List.flatten_cons,
                List.count_append] at hc ⊢
              omega
            · have h4 : olditem.t_firsttid < newitem.t_firsttid := by omega
              rw [dif_neg h2, dif_neg h3, dif_pos h4]
              obtain ⟨hne2, htd⟩ := zsbt_split_item_parts hne_old h2
              have hlt :=
                zsbt_split_item_right_lt olditem newitem.t_firsttid h2 h4
              obtain ⟨out, hout, hperm⟩ := ih (newitem :: newrest)
                ((zsbt_split_item olditem newitem.t_firsttid).2 :: oldrest)
                (by simp only [List.map_cons, List.sum_cons] at hm ⊢; omega)
                hnews
                (by
                  intro it hit
                  rcases List.mem_cons.mp hit with rfl | hit2
                  · exact hne2
                  · exact holds it (by simp [hit2]))
                (fun t ht hto => hdisj t ht (by
                  rw [mem_attrItemsTids] at hto ⊢
                  obtain ⟨it, hit, hta⟩ := hto
                  rcases List.mem_cons.mp hit with rfl | hit2
                  · refine ⟨olditem, by simp, ?_⟩
                    have hdrop : t ∈ olditem.tids.drop
                        ((olditem.tids.takeWhile
                          (fun x => decide (x < newitem.t_firsttid))).length) := by
                      simpa [zsbt_split_item] using hta
                    exact List.mem_of_mem_drop hdrop
                  · exact ⟨it, by simp [hit2], hta⟩))
              refine ⟨(zsbt_split_item olditem newitem.t_firsttid).1 :: out,
                by rw [hout]; rfl, ?_⟩
              have htdc : ∀ a : Nat,
                  (zsbt_split_item olditem newitem.t_firsttid).1.tids.count a +
                  (zsbt_split_item olditem newitem.t_firsttid).2.tids.count a =
                  olditem.tids.count a := by
                intro a
                rw [← htd, List.count_append]
              rw [List.perm_iff_count] at hperm ⊢
              intro a
              have hc := hperm a
              have htc := htdc a
              simp only [attrItemsTids, List.map_cons, List.flatten_cons,
                List.count_append] at hc ⊢
              omega

/-- C8: during the lockstep merge of `zsbt_attr_add_items`, two current
items with equal first TIDs are a fatal "duplicate TID on attribute page"
error; and whenever the (nonempty) new and old items share no TID at all —
every other overlap configuration — the merge splits at the other item's
first TID as needed and completes without error, emitting exactly the TIDs
of both inputs. -/
theorem claim_C8 :
    (∀ (newitem olditem : ZSAttrItem) (newrest oldrest : List ZSAttrItem),
      newitem.t_firsttid = olditem.t_firsttid →
      zsbt_attr_merge_items (newitem :: newrest) (olditem :: oldrest) =
        Except.error "duplicate TID on attribute page") ∧
    (∀ news olds : List ZSAttrItem,
      (∀ it ∈ news, attrItemNonempty it) →
      (∀ it ∈ olds, attrItemNonempty it) →
      (∀ t, t ∈ attrItemsTids news → t ∉ attrItemsTids olds) →
      ∃ out, zsbt_attr_merge_items news olds = Except.ok out ∧
        List.Perm (attrItemsTids out)
          (attrItemsTids news ++ attrItemsTids olds)) := by
  constructor
  · intro newitem olditem newrest oldrest heq
    rw [zsbt_attr_merge_items, if_pos heq]
  · intro news olds hnews holds hdisj
    exact zsbt_attr_merge_items_ok
      ((news.map (fun it => it.tids.length + 1)).sum +
        (olds.map (fun it => it.tids.length + 1)).sum) news olds (le_refl _)
      hnews holds hdisj

/-- Witness for C8 at a concrete input: the new item `{1, 4}` overlaps the
old item `{2, 3}` without sharing a TID; the merge splits both and succeeds. -/
theorem claim_C8_witness :
    ∃ out, zsbt_attr_merge_items [⟨[1, 4], [10, 40], [false, false]⟩]
        [⟨[2, 3], [20, 30], [false, false]⟩] = Except.ok out ∧
      List.Perm (attrItemsTids out)
        (attrItemsTids [⟨[1, 4], [10, 40], [false, false]⟩] ++
          attrItemsTids [⟨[2, 3], [20, 30], [false, false]⟩]) :=
  claim_C8.2 [⟨[1, 4], [10, 40], [false, false]⟩]
    [⟨[2, 3], [20, 30], [false, false]⟩] (by decide) (by decide) (by decide)

/-! ## Claim C1: the TID scan

The scan's next-TID operation returns a strictly ascending sequence of TIDs
in `[starttid, endtid)`, each covered by a non-DEAD item whose undo pointer
satisfies the visibility oracle, and (by uniqueness of the covering run in a
well-formed tree) never a TID covered by a DEAD item. -/

/-- `t` is covered by some non-DEAD, visible item of the tree. -/
def visibleCover (vis : Nat → Bool) (tree : List TidLeaf) (t : Nat) : Prop :=
  ∃ leaf ∈ tree, ∃ it ∈ leaf.items, it.isDead = false ∧
    vis it.t_undo_ptr = true ∧ it.t_tid ≤ t ∧ t < it.t_tid + it.t_nelements

/-- Invariant of the scan's cached array: if TIDs are still cached, the whole
cached range `[nexttid, nexttid + remaining)` stays below `endtid` and lies
inside one non-DEAD visible item of the tree. -/
def cachedOK (vis : Nat → Bool) (tree : List TidLeaf)
    (endtid nexttid remaining : Nat) : Prop :=
  0 < remaining → nexttid + remaining ≤ endtid ∧
    ∃ leaf ∈ tree, ∃ it ∈ leaf.items, it.isDead = false ∧
      vis it.t_undo_ptr = true ∧ it.t_tid ≤ nexttid ∧
      nexttid + remaining ≤ it.t_tid + it.t_nelements

/-- Behaviour of the per-page item loop: the advanced `nexttid` never moves
backwards (except for the clamp to `endtid` when stopping with nothing
cached), and whenever something is cached the cached range sits inside a
non-DEAD visible item of this page, inside `[nexttid, endtid)`. -/
theorem zsbt_tid_scan_page_items_spec (vis : Nat → Bool) (endtid : Nat) :
    ∀ (items : List ZSTidArrayItem) (nexttid nt c : Nat),
      zsbt_tid_scan_page_items vis endtid nexttid items = (nt, c) →
      (nexttid ≤ nt ∨ (c = 0 ∧ nt = endtid)) ∧
      (0 < c →
        nexttid ≤ nt ∧ nt + c ≤ endtid ∧
        ∃ it ∈ items, it.isDead = false ∧ vis it.t_undo_ptr = true ∧
          it.t_tid ≤ nt ∧ nt + c ≤ it.t_tid + it.t_nelements) := by
  intro items
  induction items with
  | nil =>
    intro nexttid nt c heq
    rw [zsbt_tid_scan_page_items] at heq
    injection heq with e1 e2
    subst e1; subst e2
    exact ⟨Or.inl (le_refl _), fun h => absurd h (by omega)⟩
  | cons item rest ih =>
    intro nexttid nt c heq
    simp only [zsbt_tid_scan_page_items] at heq
    by_cases h1 : zsbt_tid_item_lasttid item < nexttid
    · rw [if_pos h1] at heq
      obtain ⟨hmv, hch⟩ := ih nexttid nt c heq
      refine ⟨hmv, fun hc => ?_⟩
      obtain ⟨ha, hb, it, hmem, hrest⟩ := hch hc
      exact ⟨ha, hb, it, List.mem_cons_of_mem _ hmem, hrest⟩
    · rw [if_neg h1] at heq
      by_cases h2 : endtid ≤ item.t_tid
      · rw [if_pos h2] at heq
        injection heq with e1 e2
        subst e1; subst e2
        exact ⟨Or.inr ⟨rfl, rfl⟩, fun h => absurd h (by omega)⟩
      · rw [if_neg h2] at heq
        by_cases h3 : (item.isDead || !vis item.t_undo_ptr) = true
        · rw [if_pos h3] at heq
          have hlast : nexttid ≤ zsbt_tid_item_lasttid item := Nat.le_of_not_lt h1
          obtain ⟨hmv, hch⟩ := ih (zsbt_tid_item_lasttid item + 1) nt c heq
          constructor
          · rcases hmv with hle | hstop
            · exact Or.inl (by omega)
            · exact Or.inr hstop
          · intro hc
            obtain ⟨ha, hb, it, hmem, hrest⟩ := hch hc
            exact ⟨by omega, hb, it, List.mem_cons_of_mem _ hmem, hrest⟩
        · rw [if_neg h3] at heq
          simp only [Bool.or_eq_true, Bool.not_eq_true', not_or,
            Bool.not_eq_true, Bool.not_eq_false] at h3
          obtain ⟨hdead, hvis⟩ := h3
          by_cases hcl : endtid < max item.t_tid nexttid +
              (item.t_nelements - (max item.t_tid nexttid - item.t_tid))
          · simp only [if_pos hcl] at heq
            by_cases h4 : 0 < endtid - max item.t_tid nexttid
            · rw [if_pos h4] at heq
              injection heq with e1 e2
              subst e1; subst e2
              refine ⟨Or.inl (Nat.le_max_right _ _), fun _ => ?_⟩
              refine ⟨Nat.le_max_right _ _, by omega,
                item, List.mem_cons_self _ _, hdead, hvis,
                Nat.le_max_left _ _, by omega⟩
            · rw [if_neg h4] at heq
              obtain ⟨hmv, hch⟩ := ih (max item.t_tid nexttid) nt c heq
              constructor
              · rcases hmv with hle | hstop
                · exact Or.inl (le_trans (Nat.le_max_right _ _) hle)
                · exact Or.inr hstop
              · intro hc
                obtain ⟨ha, hb, it, hmem, hrest⟩ := hch hc
                exact ⟨le_trans (Nat.le_max_right _ _) ha, hb,
                  it, List.mem_cons_of_mem _ hmem, hrest⟩
          · simp only [if_neg hcl] at heq
            by_cases h4 : 0 < item.t_nelements -
                (max item.t_tid nexttid - item.t_tid)
            · rw [if_pos h4] at heq
              injection heq with e1 e2
              subst e1; subst e2
              refine ⟨Or.inl (Nat.le_max_right _ _), fun _ => ?_⟩
              refine ⟨Nat.le_max_right _ _, by omega,
                item, List.mem_cons_self _ _, hdead, hvis,
                Nat.le_max_left _ _, by omega⟩
            · rw [if_neg h4] at heq
              obtain ⟨hmv, hch⟩ := ih (max item.t_tid nexttid) nt c heq
              constructor
              · rcases hmv with hle | hstop
                · exact Or.inl (le_trans (Nat.le_max_right _ _) hle)
                · exact Or.inr hstop
              · intro hc
                obtain ⟨ha, hb, it, hmem, hrest⟩ := hch hc
                exact ⟨le_trans (Nat.le_max_right _ _) ha, hb,
                  it, List.mem_cons_of_mem _ hmem, hrest⟩

/-- Behaviour of the scan's outer loop: when it yields a TID, the TID is at
or above `nexttid`, below `endtid`, covered by a non-DEAD visible item, and
the returned state continues right after it with its cached-array invariant
intact. -/
theorem zsbt_tid_scan_next_loop_spec (vis : Nat → Bool) (tree : List TidLeaf)
    (endtid : Nat) :
    ∀ (leaves : List TidLeaf) (nexttid remaining t : Nat)
      (s' : TidScanState),
      (∀ l ∈ leaves, l ∈ tree) →
      cachedOK vis tree endtid nexttid remaining →
      zsbt_tid_scan_next_loop vis endtid leaves nexttid remaining =
        (some t, s') →
      nexttid ≤ t ∧ t < endtid ∧ visibleCover vis tree t ∧
      s'.active = true ∧ s'.nexttid = t + 1 ∧ s'.endtid = endtid ∧
      (∀ l ∈ s'.leaves, l ∈ tree) ∧
      cachedOK vis tree endtid s'.nexttid s'.arrayRemaining := by
  intro leaves
  induction leaves with
  | nil =>
    intro nexttid remaining t s' hsub hcach heq
    rw [zsbt_tid_scan_next_loop] at heq
    by_cases hlt : nexttid < endtid
    · rw [if_pos hlt] at heq
      by_cases hrem : 0 < remaining
      · rw [if_pos hrem] at heq
        injection heq with e1 e2
        injection e1 with e1
        subst e1; subst e2
        obtain ⟨hup, leaf, hlm, it, him, hd, hv, hlo, hhi⟩ := hcach hrem
        refine ⟨le_refl _, hlt, ⟨leaf, hlm, it, him, hd, hv, hlo, by omega⟩,
          rfl, rfl, rfl, by simp, ?_⟩
        intro hr
        dsimp only at hr ⊢
        exact ⟨by omega, leaf, hlm, it, him, hd, hv, by omega, by omega⟩
      · rw [if_neg hrem] at heq
        simp at heq
    · rw [if_neg hlt] at heq
      simp at heq
  | cons leaf rest ih =>
    intro nexttid remaining t s' hsub hcach heq
    rw [zsbt_tid_scan_next_loop] at heq
    by_cases hlt : nexttid < endtid
    · rw [if_pos hlt] at heq
      by_cases hrem : 0 < remaining
      · rw [if_pos hrem] at heq
        injection heq with e1 e2
        injection e1 with e1
        subst e1; subst e2
        obtain ⟨hup, leaf', hlm, it, him, hd, hv, hlo, hhi⟩ := hcach hrem
        refine ⟨le_refl _, hlt, ⟨leaf', hlm, it, him, hd, hv, hlo, by omega⟩,
          rfl, rfl, rfl, hsub, ?_⟩
        intro hr
        dsimp only at hr ⊢
        exact ⟨by omega, leaf', hlm, it, him, hd, hv, by omega, by omega⟩
      · rw [if_neg hrem] at heq
        rcases hpg : zsbt_tid_scan_page_items vis endtid nexttid leaf.items
          with ⟨nt, cached⟩
        simp only [hpg] at heq
        obtain ⟨hmv, hch⟩ := zsbt_tid_scan_page_items_spec vis endtid
          leaf.items nexttid nt cached hpg
        by_cases hc : 0 < cached
        · rw [if_pos hc] at heq
          injection heq with e1 e2
          injection e1 with e1
          subst e1; subst e2
          obtain ⟨ha, hb, it, him, hd, hv, hlo, hhi⟩ := hch hc
          have hlm : leaf ∈ tree := hsub leaf (List.mem_cons_self _ _)
          refine ⟨ha, by omega, ⟨leaf, hlm, it, him, hd, hv, hlo, by omega⟩,
            rfl, rfl, rfl, hsub, ?_⟩
          intro hr
          dsimp only at hr ⊢
          exact ⟨by omega, leaf, hlm, it, him, hd, hv, by omega, by omega⟩
        · rw [if_neg hc] at heq
          by_cases hend : rest = [] ∨ endtid ≤ max nt leaf.hikey
          · rw [if_pos hend] at heq
            simp at heq
          · rw [if_neg hend] at heq
            have hsub' : ∀ l ∈ rest, l ∈ tree :=
              fun l hl => hsub l (List.mem_cons_of_mem _ hl)
            have hcach' : cachedOK vis tree endtid (max nt leaf.hikey) 0 :=
              fun h => absurd h (by omega)
            obtain ⟨ha, hb, hcov, hact, hnx, hed, hsub'', hcach''⟩ :=
              ih (max nt leaf.hikey) 0 t s' hsub' hcach' heq
            push_neg at hend
            have hnn : nexttid ≤ nt := by
              rcases hmv with hle | hstop
              · exact hle
              · have hmx := Nat.le_max_left nt leaf.hikey
                omega
            exact ⟨by omega, hb, hcov, hact, hnx, hed, hsub'', hcach''⟩
    · rw [if_neg hlt] at heq
      simp at heq

/-- A scan state whose pinned leaf chain belongs to the tree and whose cached
array (if any) is inside a non-DEAD visible item. -/
def scanStateOK (vis : Nat → Bool) (tree : List TidLeaf)
    (s : TidScanState) : Prop :=
  (∀ l ∈ s.leaves, l ∈ tree) ∧
  cachedOK vis tree s.endtid s.nexttid s.arrayRemaining

/-- One `zsbt_tid_scan_next` call from a good state: a yielded TID is in
`[nexttid, endtid)`, covered by a non-DEAD visible item, and the scan
continues right after it from a good state. -/
theorem zsbt_tid_scan_next_spec (vis : Nat → Bool) (tree : List TidLeaf)
    {s : TidScanState} {t : Nat} {s' : TidScanState}
    (hok : scanStateOK vis tree s)
    (heq : zsbt_tid_scan_next vis s = (some t, s')) :
    s.nexttid ≤ t ∧ t < s.endtid ∧ visibleCover vis tree t ∧
    s'.nexttid = t + 1 ∧ s'.endtid = s.endtid ∧ scanStateOK vis tree s' := by
  rw [zsbt_tid_scan_next] at heq
  cases hact : s.active with
  | false =>
    rw [hact] at heq
    simp at heq
  | true =>
    rw [hact] at heq
    simp only [Bool.not_true, Bool.false_eq_true, if_false] at heq
    obtain ⟨h1, h2, h3, _, h5, h6, h7, h8⟩ :=
      zsbt_tid_scan_next_loop_spec vis tree s.endtid s.leaves s.nexttid
        s.arrayRemaining t s' hok.1 hok.2 heq
    exact ⟨h1, h2, h3, h5, h6, h7, by rw [h6]; exact h8⟩

/-- The whole scan trace from a good state is strictly ascending, stays in
`[nexttid, endtid)`, and every returned TID is covered by a non-DEAD visible
item. -/
theorem scanTrace_spec (vis : Nat → Bool) (tree : List TidLeaf) :
    ∀ (fuel : Nat) (s : TidScanState), scanStateOK vis tree s →
      (scanTrace vis fuel s).Chain' (fun a b => a < b) ∧
      ∀ t ∈ scanTrace vis fuel s,
        s.nexttid ≤ t ∧ t < s.endtid ∧ visibleCover vis tree t := by
  intro fuel
  induction fuel with
  | zero =>
    intro s _
    rw [scanTrace]
    exact ⟨List.chain'_nil, by simp⟩
  | succ fuel ih =>
    intro s hok
    rw [scanTrace]
    rcases hnext : zsbt_tid_scan_next vis s with ⟨r, s'⟩
    rcases r with _ | t
    · simp
    · obtain ⟨h1, h2, h3, h4, h5, h6⟩ :=
        zsbt_tid_scan_next_spec vis tree hok hnext
      obtain ⟨ihc, ihm⟩ := ih s' h6
      simp only
      constructor
      · rw [List.chain'_cons']
        refine ⟨fun b hb => ?_, ihc⟩
        have hbm : b ∈ scanTrace vis fuel s' := List.mem_of_mem_head? hb
        have := (ihm b hbm).1
        omega
      · intro u hu
        rcases List.mem_cons.mp hu with rfl | hu'
        · exact ⟨h1, h2, h3⟩
        · obtain ⟨hu1, hu2, hu3⟩ := ihm u hu'
          exact ⟨by omega, by omega, hu3⟩

/-- `zsbt_tid_begin_scan` always produces a good state. -/
theorem zsbt_tid_begin_scan_ok (vis : Nat → Bool) (tree : List TidLeaf)
    (starttid endtid : Nat) :
    scanStateOK vis tree (zsbt_tid_begin_scan tree starttid endtid) := by
  rw [zsbt_tid_begin_scan]
  cases hd : zsbt_descend_leaf tree starttid with
  | none =>
    exact ⟨by simp, fun h => absurd h (by simp)⟩
  | some i =>
    refine ⟨fun l hl => ?_, fun h => absurd h (by simp)⟩
    exact List.mem_of_mem_drop hl

/-- The initial state scans from `starttid` with range end `endtid`. -/
theorem zsbt_tid_begin_scan_fields (tree : List TidLeaf)
    (starttid endtid : Nat) :
    (zsbt_tid_begin_scan tree starttid endtid).nexttid = starttid ∧
    (zsbt_tid_begin_scan tree starttid endtid).endtid = endtid := by
  rw [zsbt_tid_begin_scan]
  cases zsbt_descend_leaf tree starttid with
  | none => exact ⟨rfl, rfl⟩
  | some i => exact ⟨rfl, rfl⟩

/-- Indexed form of the pairwise non-overlap of a leaf's items. -/
theorem itemsWF_end_le_elem {items : List ZSTidArrayItem}
    (hpw : items.Pairwise (fun a b => a.t_tid + a.t_nelements ≤ b.t_tid))
    {i j : Nat} (hij : i < j) (hi : i < items.length) (hj : j < items.length) :
    items[i].t_tid + items[i].t_nelements ≤ items[j].t_tid :=
  (List.pairwise_iff_getElem.mp hpw) i j hi hj hij

/-- In a well-formed item array, at most one run covers a given TID. -/
theorem items_covering_unique {lokey hikey : Nat}
    {items : List ZSTidArrayItem} (hwf : itemsWF lokey hikey items) {t : Nat} :
    ∀ it1 ∈ items, ∀ it2 ∈ items,
      it1.t_tid ≤ t → t < it1.t_tid + it1.t_nelements →
      it2.t_tid ≤ t → t < it2.t_tid + it2.t_nelements → it1 = it2 := by
  intro it1 h1 it2 h2 ha hb hc hd
  obtain ⟨i, hi, hie⟩ := List.mem_iff_getElem.mp h1
  obtain ⟨j, hj, hje⟩ := List.mem_iff_getElem.mp h2
  rcases Nat.lt_trichotomy i j with hij | rfl | hji
  · exfalso
    have := itemsWF_end_le_elem hwf.2 hij hi hj
    rw [hie, hje] at this
    omega
  · rw [← hie, ← hje]
  · exfalso
    have := itemsWF_end_le_elem hwf.2 hji hj hi
    rw [hje, hie] at this
    omega

/-- In a well-formed tree, an item of an earlier leaf and an item of a later
leaf cannot both cover the same TID: leaf key ranges are disjoint. -/
theorem tree_cross_leaf_impossible {tree : List TidLeaf} (hwf : treeWF tree)
    {t : Nat} {a b : Nat} (hab : a < b) (haa : a < tree.length)
    (hba : b < tree.length) {it1 it2 : ZSTidArrayItem}
    (h1 : it1 ∈ tree[a].items) (h2 : it2 ∈ tree[b].items)
    (hb : t < it1.t_tid + it1.t_nelements) (hc : it2.t_tid ≤ t) : False := by
  have hma : tree[a] ∈ tree := List.getElem_mem _
  have hmb : tree[b] ∈ tree := List.getElem_mem _
  have hb1 := (hwf.1 _ hma).2.1 it1 h1
  have hb2 := (hwf.1 _ hmb).2.1 it2 h2
  have hbd := hwf.2 (b - 1) (by omega)
  have hmono := treeWF_hikey_mono hwf (b - 1 - a) a (by omega)
  rw [show a + (b - 1 - a) = b - 1 from by omega] at hmono
  rw [show b - 1 + 1 = b from by omega] at hbd
  rw [getD_eq_getElem_of_lt haa] at hmono
  rw [getD_eq_getElem_of_lt hba] at hbd
  omega

/-- In a well-formed tree, at most one run (across all leaves) covers a
given TID. -/
theorem tree_covering_unique {tree : List TidLeaf} (hwf : treeWF tree)
    {t : Nat} :
    ∀ l1 ∈ tree, ∀ l2 ∈ tree, ∀ it1 ∈ l1.items, ∀ it2 ∈ l2.items,
      it1.t_tid ≤ t → t < it1.t_tid + it1.t_nelements →
      it2.t_tid ≤ t → t < it2.t_tid + it2.t_nelements → it1 = it2 := by
  intro l1 hl1 l2 hl2 it1 h1 it2 h2 ha hb hc hd
  obtain ⟨a, haa, hae⟩ := List.mem_iff_getElem.mp hl1
  obtain ⟨b, hba, hbe⟩ := List.mem_iff_getElem.mp hl2
  rw [← hae] at h1
  rw [← hbe] at h2
  rcases Nat.lt_trichotomy a b with hab | rfl | hba'
  · exact absurd (tree_cross_leaf_impossible hwf hab haa hba h1 h2 hb hc) id
  · have hll : l1 = l2 := hae.symm.trans hbe
    subst hll
    exact items_covering_unique (hwf.1 l1 hl1).2 it1 (hae ▸ h1) it2
      (hae ▸ h2) ha hb hc hd
  · exact absurd (tree_cross_leaf_impossible hwf hba' hba haa h2 h1 hd ha) id

/-- **C1.** For a TID-tree scan opened over `[starttid, endtid)` on a
well-formed tree, successive `zsbt_tid_scan_next` calls return a strictly
ascending sequence of TIDs, each in `[starttid, endtid)`, each covered by a
run that is not DEAD and whose undo pointer satisfies the snapshot's
visibility predicate — and therefore never a TID covered by a DEAD item,
since at most one run covers any TID. -/
theorem claim_C1 (vis : Nat → Bool) (tree : List TidLeaf)
    (starttid endtid fuel : Nat) (hwf : treeWF tree) :
    (scanTrace vis fuel (zsbt_tid_begin_scan tree starttid endtid)).Chain'
      (fun a b => a < b) ∧
    (∀ t ∈ scanTrace vis fuel (zsbt_tid_begin_scan tree starttid endtid),
      starttid ≤ t ∧ t < endtid ∧ visibleCover vis tree t) ∧
    (∀ t ∈ scanTrace vis fuel (zsbt_tid_begin_scan tree starttid endtid),
      ∀ leaf ∈ tree, ∀ it ∈ leaf.items,
        it.t_tid ≤ t → t < it.t_tid + it.t_nelements →
        it.isDead = false) := by
  obtain ⟨hn, he⟩ := zsbt_tid_begin_scan_fields tree starttid endtid
  obtain ⟨hchain, hmem⟩ := scanTrace_spec vis tree fuel
    (zsbt_tid_begin_scan tree starttid endtid)
    (zsbt_tid_begin_scan_ok vis tree starttid endtid)
  refine ⟨hchain, fun t ht => ?_, fun t ht leaf hleaf it hit hlo hhi => ?_⟩
  · obtain ⟨h1, h2, h3⟩ := hmem t ht
    rw [hn] at h1
    rw [he] at h2
    exact ⟨h1, h2, h3⟩
  · obtain ⟨_, _, h3⟩ := hmem t ht
    have h3' : ∃ leaf ∈ tree, ∃ it ∈ leaf.items, it.isDead = false ∧
        vis it.t_undo_ptr = true ∧ it.t_tid ≤ t ∧
        t < it.t_tid + it.t_nelements := h3
    obtain ⟨leaf', hl', it', hit', hd', hv', hlo', hhi'⟩ := h3'
    have hu := tree_covering_unique hwf leaf hleaf leaf' hl' it hit it' hit'
      hlo hhi hlo' hhi'
    rw [hu]
    exact hd'

/-- Witness for C1 at a concrete input: one leaf holding the visible run
`[1, 3)`, a DEAD singleton at 3, and a run `[4, 6)` whose undo pointer the
snapshot rejects. -/
theorem claim_C1_witness :
    (scanTrace (fun p => p == 7) 8
        (zsbt_tid_begin_scan
          [⟨1, 281474976710656,
            [⟨1, 2, 7, 0⟩, ⟨3, 1, 0, 1⟩, ⟨4, 2, 8, 0⟩]⟩] 1 100)).Chain'
      (fun a b => a < b) ∧
    (∀ t ∈ scanTrace (fun p => p == 7) 8
        (zsbt_tid_begin_scan
          [⟨1, 281474976710656,
            [⟨1, 2, 7, 0⟩, ⟨3, 1, 0, 1⟩, ⟨4, 2, 8, 0⟩]⟩] 1 100),
      1 ≤ t ∧ t < 100 ∧ visibleCover (fun p => p == 7)
        [⟨1, 281474976710656,
          [⟨1, 2, 7, 0⟩, ⟨3, 1, 0, 1⟩, ⟨4, 2, 8, 0⟩]⟩] t) ∧
    (∀ t ∈ scanTrace (fun p => p == 7) 8
        (zsbt_tid_begin_scan
          [⟨1, 281474976710656,
            [⟨1, 2, 7, 0⟩, ⟨3, 1, 0, 1⟩, ⟨4, 2, 8, 0⟩]⟩] 1 100),
      ∀ leaf ∈ [(⟨1, 281474976710656,
          [⟨1, 2, 7, 0⟩, ⟨3, 1, 0, 1⟩, ⟨4, 2, 8, 0⟩]⟩ : TidLeaf)],
        ∀ it ∈ leaf.items,
          it.t_tid ≤ t → t < it.t_tid + it.t_nelements →
          it.isDead = false) :=
  claim_C1 (fun p => p == 7)
    [⟨1, 281474976710656, [⟨1, 2, 7, 0⟩, ⟨3, 1, 0, 1⟩, ⟨4, 2, 8, 0⟩]⟩]
    1 100 8 (by decide)

end ZedStore
